import Mathlib

/-!
Verification of the slitherlink editor embedded in `app.py`.

The client-side program (JavaScript inside `app.py`) is shallowly embedded
here: its pure helpers become Lean functions, its global mutable state
(`edges`, `degree`, `zoom`, `viewport`, pointer bookkeeping) becomes an
explicit state record threaded through the event handlers, JS numbers are
modelled with exact arithmetic (`Int` for integral data, `ℚ` for viewport
coordinates), and every JS operation that can throw is modelled with
`Option`.  String keys are kept as Lean `String`s built exactly the way the
source builds them (decimal rendering of the coordinates).
-/

namespace Slither

/-! ## Decimal rendering of numbers (JS template-string `${n}`)

JavaScript renders an integral number as its decimal digits with an optional
leading minus sign.  We implement that printer directly (fuel-structural so
that it evaluates by `decide`/`rfl`) together with a value function used to
prove it injective and parseable back. -/

/-- The character for a single decimal digit. -/
def digitChar (d : Nat) : Char := Char.ofNat (48 + d)

/-- Digits of `n`, most significant first; `fuel`-structural recursion
(`fuel ≥ n` suffices).  Produces `[]` for `n = 0`. -/

def natCharsAux : Nat → Nat → List Char
  | 0, _ => []
  | fuel+1, n => if n = 0 then [] else natCharsAux fuel (n / 10) ++ [digitChar (n % 10)]

/-- Decimal rendering of a natural number, as JS `${n}` renders it. -/

def natChars (n : Nat) : List Char := if n = 0 then ['0'] else natCharsAux n n

/-- Decimal rendering of an integer, as JS `${n}` renders it. -/

def intChars : Int → List Char
  | Int.ofNat n => natChars n
  | Int.negSucc n => '-' :: natChars (n + 1)

/-- Numeric value of a digit character. -/

def charVal (c : Char) : Nat := c.toNat - 48

/-- Value of a list of digit characters, most significant first. -/

def charsVal (l : List Char) : Nat := l.foldl (fun acc c => acc * 10 + charVal c) 0

/-- Split a character list at every occurrence of `sep`
(single-character JS `String.split`). -/
def splitCh (sep : Char) : List Char → List (List Char)
  | [] => [[]]
  | c :: cs =>
    if c = sep then [] :: splitCh sep cs
    else
      match splitCh sep cs with
      | [] => [[c]]
      | p :: ps => (c :: p) :: ps

structure Node where
  x : Int
  y : Int
deriving DecidableEq, Repr

/-- Source `nodeKey`: the template string `x,y`. -/

def nodeKey (n : Node) : String := String.mk (intChars n.x ++ ',' :: intChars n.y)

/-- Key combination used by `edgeKey` once the endpoint keys are rendered. -/

def edgeKeyK (ka kb : String) : String :=
  if ka < kb then ka ++ "|" ++ kb else kb ++ "|" ++ ka

/-- Source `edgeKey`. -/

def edgeKey (a b : Node) : String := edgeKeyK (nodeKey a) (nodeKey b)

def keyParts (k : String) : List String := (splitCh '|' k.data).map String.mk

/-- An edge key `k` is incident to the node key `nk` when `nk` is one of its
`'|'`-separated parts. -/

def incidentB (nk k : String) : Bool := decide (nk ∈ keyParts k)

structure GState where
  edges : List String
  degree : String → Int

/-- The initial empty maps. -/

def emptyG : GState := ⟨[], fun _ => 0⟩

/-- JS `Map.set` on the edge map (keys only; the stored value is always `true`). -/

def mapSet (l : List String) (k : String) : List String :=
  if k ∈ l then l else l ++ [k]

/-- Pointwise update of the degree function (`degree.set`). -/

def degSet (d : String → Int) (k : String) (v : Int) : String → Int :=
  fun k' => if k' = k then v else d k'

/-- JS `x || 1` for a number read from the degree map (`0`/missing are falsy). -/

def jsOr1 (d : Int) : Int := if d = 0 then 1 else d

/-- Source `addEdge` (lines 106–117).  Returns the new state and the JS
return value; the `scheduleSaveState()` side effect is outside the graph
state. -/

def addEdge (s : GState) (a b : Node) : GState × Bool :=
  let k := edgeKey a b
  if k ∈ s.edges then (s, false)
  else
    let da := s.degree (nodeKey a)
    let db := s.degree (nodeKey b)
    if da ≥ 2 ∨ db ≥ 2 then (s, false)
    else
      ({ edges := s.edges ++ [k],
         degree := degSet (degSet s.degree (nodeKey a) (da + 1)) (nodeKey b) (db + 1) },
       true)

/-- Source `removeEdge` (lines 118–126). -/

def removeEdge (s : GState) (a b : Node) : GState × Bool :=
  let k := edgeKey a b
  if k ∈ s.edges then
    let d1 := degSet s.degree (nodeKey a) (jsOr1 (s.degree (nodeKey a)) - 1)
    let d2 := degSet d1 (nodeKey b) (jsOr1 (d1 (nodeKey b)) - 1)
    ({ edges := s.edges.erase k, degree := d2 }, true)
  else (s, false)

/-- Source `hasEdge` query (`edges.has(k)` as used at source line 375). -/

def hasEdge (s : GState) (a b : Node) : Bool := decide (edgeKey a b ∈ s.edges)

/-- Number of edges in the edge set incident to the node key `nk`. -/

def incidentCount (nk : String) (edges : List String) : Int :=
  ((edges.filter (fun k => incidentB nk k)).length : Int)

inductive GOp
  | add (a b : Node)
  | remove (a b : Node)
deriving DecidableEq, Repr

/-- Run one operation (discarding the JS boolean result). -/

def stepOp (s : GState) : GOp → GState
  | .add a b => (addEdge s a b).1
  | .remove a b => (removeEdge s a b).1

/-- Run a whole sequence of operations, starting from the empty graph. -/

def runOps (ops : List GOp) : GState := ops.foldl stepOp emptyG

/-- Bounds `0 ≤ col < COLS` and `0 ≤ row < ROWS` (source constants `COLS = 128`,
`ROWS = 178`). -/

def inBoundsN (n : Node) : Prop := 0 ≤ n.x ∧ n.x < 128 ∧ 0 ≤ n.y ∧ n.y < 178

/-- Lattice adjacency: the coordinates differ by exactly 1 in one axis and
0 in the other. -/

def adjacentN (a b : Node) : Prop := (a.x - b.x).natAbs + (a.y - b.y).natAbs = 1

/-- The spec's precondition for `addEdge`/`removeEdge` arguments. -/

def validPair (a b : Node) : Prop := inBoundsN a ∧ inBoundsN b ∧ adjacentN a b

/-- Every operation of a sequence respects the argument precondition. -/

def validOp : GOp → Prop
  | .add a b => validPair a b
  | .remove a b => validPair a b

instance : DecidablePred inBoundsN := fun n => by unfold inBoundsN; infer_instance

instance : ∀ a b, Decidable (adjacentN a b) := fun a b => by
  unfold adjacentN; infer_instance

instance : ∀ a b, Decidable (validPair a b) := fun a b => by
  unfold validPair; infer_instance

instance : DecidablePred validOp := fun op => by
  cases op <;> (dsimp [validOp]; infer_instance)

def DegInv (s : GState) : Prop :=
  ∀ n : Node, s.degree (nodeKey n) = incidentCount (nodeKey n) s.edges ∧
    s.degree (nodeKey n) ≤ 2

/-- Internal strengthening: the edge map, being a JS `Map`, is
duplicate-free. -/

def InvFull (s : GState) : Prop := s.edges.Nodup ∧ DegInv s

/-- A JSON value. -/
inductive Json
  | null
  | bool (b : Bool)
  | num (n : Int)
  | str (s : String)
  | arr (elems : List Json)
  | obj (fields : List (String × Json))
deriving Repr

/-- The hexadecimal digit character for `d < 16`. -/

def hexDigit (d : Nat) : Char := if d < 10 then digitChar d else Char.ofNat (87 + d)

/-- How `JSON.stringify` escapes one character inside a string literal. -/

def escapeChar (c : Char) : List Char :=
  if c = '"' then ['\\', '"']
  else if c = '\\' then ['\\', '\\']
  else if c = '\n' then ['\\', 'n']
  else if c = '\t' then ['\\', 't']
  else if c = '\r' then ['\\', 'r']
  else if c.toNat = 8 then ['\\', 'b']
  else if c.toNat = 12 then ['\\', 'f']
  else if c.toNat < 0x20 then
    ['\\', 'u', '0', '0', hexDigit (c.toNat / 16), hexDigit (c.toNat % 16)]
  else [c]

/-- A `JSON.stringify` string literal: quote, escaped characters, quote. -/

def strLit (s : String) : List Char :=
  '"' :: s.data.foldr (fun c acc => escapeChar c ++ acc) ['"']

mutual

/-- Characters of `JSON.stringify` of a value (no added whitespace,
exactly as the browser produces for the state object). -/
def strJ : Json → List Char
  | .num n => intChars n
  | .bool false => ['f', 'a', 'l', 's', 'e']
  | .bool true => ['t', 'r', 'u', 'e']
  | .null => ['n', 'u', 'l', 'l']
  | .str s => strLit s
  | .arr xs => '[' :: (strElems xs ++ [']'])
  | .obj fs => '\x7b' :: (strFields fs ++ ['\x7d'])

/-- Comma-separated stringified array elements. -/
def strElems : List Json → List Char
  | [] => []
  | [x] => strJ x
  | x :: xs => strJ x ++ ',' :: strElems xs

/-- Comma-separated stringified object fields. -/
def strFields : List (String × Json) → List Char
  | [] => []
  | [(k, v)] => strLit k ++ ':' :: strJ v
  | (k, v) :: fs => strLit k ++ ':' :: strJ v ++ ',' :: strFields fs

end

mutual

/-- Parser fuel bound for a value. -/
def jweight : Json → Nat
  | .arr xs => 1 + jweightL xs
  | .obj fs => 1 + jweightF fs
  | _ => 1

/-- Parser fuel bound for an element list. -/
def jweightL : List Json → Nat
  | [] => 0
  | x :: xs => 1 + jweight x + jweightL xs

/-- Parser fuel bound for a field list. -/
def jweightF : List (String × Json) → Nat
  | [] => 0
  | (_, v) :: fs => 1 + jweight v + jweightF fs

end

/-- A character that is serialized verbatim and re-parsed verbatim:
printable ASCII, no quote, no backslash. -/
def cleanChar (c : Char) : Prop :=
  0x20 ≤ c.toNat ∧ c.toNat < 0x7f ∧ c ≠ '"' ∧ c ≠ '\\'

instance : DecidablePred cleanChar := fun c => by unfold cleanChar; infer_instance

/-- A string whose serialization needs no escapes and survives the ASCII
fast path of the UTF-8 round trip. -/

def cleanStr (s : String) : Prop := ∀ c ∈ s.data, cleanChar c

instance : DecidablePred cleanStr := fun s => by
  unfold cleanStr; exact List.decidableBAll _ _

/-- JSON trees whose strings (including object keys) are clean. -/

inductive CleanJ : Json → Prop
  | null : CleanJ .null
  | bool (b : Bool) : CleanJ (.bool b)
  | num (n : Int) : CleanJ (.num n)
  | str (s : String) : cleanStr s → CleanJ (.str s)
  | arr (xs : List Json) : (∀ x ∈ xs, CleanJ x) → CleanJ (.arr xs)
  | obj (fs : List (String × Json)) :
      (∀ f ∈ fs, cleanStr f.1) → (∀ f ∈ fs, CleanJ f.2) → CleanJ (.obj fs)

/-! ## JSON parsing (model of `JSON.parse`)

A recursive-descent parser over the character list, with explicit fuel
(structural, so concrete runs reduce in the kernel).  Following the
embedding's exact-arithmetic convention, number parsing accepts optional
sign and decimal digits; payloads produced by this program only contain
such numbers. -/

/-- JSON whitespace. -/

def jsonWs (c : Char) : Bool := c = ' ' || c = '\t' || c = '\n' || c = '\r'

/-- Skip leading JSON whitespace. -/

def skipWs : List Char → List Char
  | [] => []
  | c :: cs => if jsonWs c then skipWs cs else c :: cs

/-- Value of a hexadecimal digit character. -/
def hexVal (c : Char) : Option Nat :=
  if '0' ≤ c ∧ c ≤ '9' then some (c.toNat - 48)
  else if 'a' ≤ c ∧ c ≤ 'f' then some (c.toNat - 87)
  else if 'A' ≤ c ∧ c ≤ 'F' then some (c.toNat - 55)
  else none

/-- Unescape a single-character escape sequence. -/

def unescapeChar (c : Char) : Option Char :=
  if c = '"' then some '"'
  else if c = '\\' then some '\\'
  else if c = '/' then some '/'
  else if c = 'b' then some (Char.ofNat 8)
  else if c = 'f' then some (Char.ofNat 12)
  else if c = 'n' then some '\n'
  else if c = 'r' then some '\r'
  else if c = 't' then some '\t'
  else none

/-- Parse the body of a string literal after the opening quote; returns the
string's characters and the input after the closing quote.  Unicode escapes
denoting surrogate halves are not representable as scalar values and are
rejected. -/

def parseStrAux : List Char → Option (List Char × List Char)
  | [] => none
  | c :: cs =>
    if c = '"' then some ([], cs)
    else if c = '\\' then
      match cs with
      | 'u' :: h1 :: h2 :: h3 :: h4 :: cs2 =>
        match hexVal h1, hexVal h2, hexVal h3, hexVal h4 with
        | some v1, some v2, some v3, some v4 =>
          let n := ((v1 * 16 + v2) * 16 + v3) * 16 + v4
          if n < 0xd800 ∨ 0xdfff < n then
            match parseStrAux cs2 with
            | some (s, r) => some (Char.ofNat n :: s, r)
            | none => none
          else none
        | _, _, _, _ => none
      | e :: cs2 =>
        match unescapeChar e with
        | some ch =>
          match parseStrAux cs2 with
          | some (s, r) => some (ch :: s, r)
          | none => none
        | none => none
      | [] => none
    else if c.toNat < 0x20 then none
    else
      match parseStrAux cs with
      | some (s, r) => some (c :: s, r)
      | none => none

/-- Parse an integer numeral: optional minus sign, then decimal digits. -/

def parseNumber (l : List Char) : Option (Int × List Char) :=
  match l with
  | [] => none
  | c :: rest =>
    if c = '-' then
      let p := rest.span Char.isDigit
      if p.1.isEmpty then none else some (-(charsVal p.1 : Int), p.2)
    else
      let p := (c :: rest).span Char.isDigit
      if p.1.isEmpty then none else some ((charsVal p.1 : Int), p.2)

mutual

/-- Parse one JSON value; returns it and the remaining input. -/
def parseValue : Nat → List Char → Option (Json × List Char)
  | 0, _ => none
  | fuel+1, l =>
    match skipWs l with
    | [] => none
    | c :: cs =>
      if c = '[' then
        match skipWs cs with
        | ']' :: r => some (.arr [], r)
        | cs' =>
          match parseElems fuel cs' with
          | some (xs, r) => some (.arr xs, r)
          | none => none
      else if c = '\x7b' then
        match skipWs cs with
        | '\x7d' :: r => some (.obj [], r)
        | cs' =>
          match parseFields fuel cs' with
          | some (fs, r) => some (.obj fs, r)
          | none => none
      else if c = '"' then
        match parseStrAux cs with
        | some (s, r) => some (.str (String.mk s), r)
        | none => none
      else if c = 'n' then
        match cs with
        | 'u' :: 'l' :: 'l' :: r => some (.null, r)
        | _ => none
      else if c = 't' then
        match cs with
        | 'r' :: 'u' :: 'e' :: r => some (.bool true, r)
        | _ => none
      else if c = 'f' then
        match cs with
        | 'a' :: 'l' :: 's' :: 'e' :: r => some (.bool false, r)
        | _ => none
      else if c = '-' ∨ c.isDigit then
        match parseNumber (c :: cs) with
        | some (n, r) => some (.num n, r)
        | none => none
      else none

/-- Parse one or more comma-separated array elements and the closing
bracket. -/
def parseElems : Nat → List Char → Option (List Json × List Char)
  | 0, _ => none
  | fuel+1, l =>
    match parseValue fuel l with
    | some (j, r) =>
      match skipWs r with
      | ',' :: r2 =>
        match parseElems fuel r2 with
        | some (xs, r3) => some (j :: xs, r3)
        | none => none
      | ']' :: r2 => some ([j], r2)
      | _ => none
    | none => none

/-- Parse one or more comma-separated object fields and the closing
brace. -/
def parseFields : Nat → List Char → Option (List (String × Json) × List Char)
  | 0, _ => none
  | fuel+1, l =>
    match skipWs l with
    | '"' :: cs =>
      match parseStrAux cs with
      | some (k, r) =>
        match skipWs r with
        | ':' :: r2 =>
          match parseValue fuel r2 with
          | some (v, r3) =>
            match skipWs r3 with
            | ',' :: r4 =>
              match parseFields fuel r4 with
              | some (fs, r5) => some ((String.mk k, v) :: fs, r5)
              | none => none
            | '\x7d' :: r4 => some ([(String.mk k, v)], r4)
            | _ => none
          | none => none
        | _ => none
      | none => none
    | _ => none

end

/-- The U+FFFD replacement character. -/
def fffd : Char := Char.ofNat 0xfffd

/-- A UTF-8 continuation byte. -/
def isCont (b : Nat) : Bool := decide (0x80 ≤ b ∧ b ≤ 0xbf)

/-- Allowed second byte after a three-byte lead (excludes overlong forms
and surrogates). -/
def cont3ok (b b2 : Nat) : Bool :=
  if b = 0xe0 then decide (0xa0 ≤ b2 ∧ b2 ≤ 0xbf)
  else if b = 0xed then decide (0x80 ≤ b2 ∧ b2 ≤ 0x9f)
  else isCont b2

/-- Allowed second byte after a four-byte lead. -/
def cont4ok (b b2 : Nat) : Bool :=
  if b = 0xf0 then decide (0x90 ≤ b2 ∧ b2 ≤ 0xbf)
  else if b = 0xf4 then decide (0x80 ≤ b2 ∧ b2 ≤ 0x8f)
  else isCont b2

mutual

/-- Total UTF-8 decoder with U+FFFD replacement (non-fatal TextDecoder);
one-byte (ASCII) sequences are handled here, longer sequences by
`utf8DecMulti`. -/
def utf8Dec : List Nat → List Char
  | [] => []
  | b :: rest =>
    if b < 0x80 then Char.ofNat b :: utf8Dec rest else utf8DecMulti b rest
termination_by l => 2 * l.length + 1
decreasing_by all_goals simp_wf <;> omega

/-- Decode one multi-byte UTF-8 sequence led by `b` (which is ≥ 0x80),
with U+FFFD replacement on malformed input. -/
def utf8DecMulti (b : Nat) (rest : List Nat) : List Char :=
  if 0xc2 ≤ b ∧ b ≤ 0xdf then
    match rest with
    | b2 :: rest2 =>
      if isCont b2 then Char.ofNat ((b - 0xc0) * 64 + (b2 - 0x80)) :: utf8Dec rest2
      else fffd :: utf8Dec (b2 :: rest2)
    | [] => [fffd]
  else if 0xe0 ≤ b ∧ b ≤ 0xef then
    match rest with
    | b2 :: b3 :: rest3 =>
      if cont3ok b b2 ∧ isCont b3 then
        Char.ofNat (((b - 0xe0) * 64 + (b2 - 0x80)) * 64 + (b3 - 0x80)) :: utf8Dec rest3
      else fffd :: utf8Dec (b2 :: b3 :: rest3)
    | [b2] => fffd :: utf8Dec [b2]
    | [] => [fffd]
  else if 0xf0 ≤ b ∧ b ≤ 0xf4 then
    match rest with
    | b2 :: b3 :: b4 :: rest4 =>
      if cont4ok b b2 ∧ isCont b3 ∧ isCont b4 then
        Char.ofNat ((((b - 0xf0) * 64 + (b2 - 0x80)) * 64 + (b3 - 0x80)) * 64 + (b4 - 0x80))
          :: utf8Dec rest4
      else fffd :: utf8Dec (b2 :: b3 :: b4 :: rest4)
    | [b2, b3] => fffd :: utf8Dec [b2, b3]
    | [b2] => fffd :: utf8Dec [b2]
    | [] => [fffd]
  else fffd :: utf8Dec rest
termination_by 2 * rest.length + 2
decreasing_by all_goals simp_wf <;> omega

end

/-! ## URL-safe base64 (source lines 199–227)

The encoder models `btoa` on the binary string built byte-by-byte from the
UTF-8 bytes, followed by the source's `+`→`-`, `/`→`_` substitution and
stripping of trailing `=`.  The decoder models the reverse substitution,
re-padding to a multiple of 4, and the forgiving-base64 `atob` (which
throws on bad input — modelled as `none`). -/

/-- The input does not continue a decimal numeral: empty, or its head is
not a digit. -/
def noDigitHead : List Char → Prop
  | [] => True
  | c :: _ => ¬ c.isDigit = true

/-- The 6-bit values carried by `b64core` (proof decomposition). -/
def b64vals : List Nat → List Nat
  | [] => []
  | [b1] => [b1 / 4, b1 % 4 * 16]
  | [b1, b2] => [b1 / 4, b1 % 4 * 16 + b2 / 16, b2 % 16 * 4]
  | b1 :: b2 :: b3 :: rest =>
    b1 / 4 :: (b1 % 4 * 16 + b2 / 16) :: (b2 % 16 * 4 + b3 / 64) :: b3 % 64 :: b64vals rest

/-- Grid columns. -/
def COLS : Int := 128

/-- Grid rows. -/
def ROWS : Int := 178

/-- World-pixel spacing between lattice dots. -/
def DOT_SPACING : ℚ := 9

/-- Hit acceptance radius in screen pixels. -/
def EDGE_HIT_RADIUS : ℚ := 10

/-- Margin so edges do not clip. -/
def BORDER : ℚ := DOT_SPACING * 2

/-- Width of the dot lattice in world pixels. -/
def gridWidth : ℚ := ((COLS : ℚ) - 1) * DOT_SPACING

/-- Height of the dot lattice in world pixels. -/
def gridHeight : ℚ := ((ROWS : ℚ) - 1) * DOT_SPACING

/-- Full world width (lattice plus border margin). -/
def fullWidth : ℚ := gridWidth + BORDER * 2

/-- Full world height (lattice plus border margin). -/
def fullHeight : ℚ := gridHeight + BORDER * 2

/-- The `pointerStart` record captured on pointerdown (source line 340). -/
structure PStart where
  x : ℚ
  y : ℚ
  cx : ℚ
  cy : ℚ

/-- The script's global mutable state: graph maps, zoom, viewport, canvas
pixel size, and the transient pointer bookkeeping.  Viewport fields are
modelled post-initialization (non-null). -/
structure AppState where
  graph : GState
  zoom : ℚ
  vcx : ℚ
  vcy : ℚ
  vw : ℚ
  vh : ℚ
  cw : ℚ
  ch : ℚ
  isPointerDown : Bool
  isDragging : Bool
  pointerStart : Option PStart

/-- JS truthiness of a JSON value. -/
def jsTruthy : Json → Bool
  | .null => false
  | .bool b => b
  | .num n => decide (n ≠ 0)
  | .str s => decide (s ≠ "")
  | .arr _ => true
  | .obj _ => true

/-- JS `typeof x === "object"` for a JSON value (`null`, arrays and objects
qualify). -/
def jsTypeofObject : Json → Bool
  | .null => true
  | .arr _ => true
  | .obj _ => true
  | _ => false

/-- Property access `obj.name`; `none` models `undefined`.  `JSON.parse`
keeps the last of duplicate keys, so lookup takes the last match. -/
def jsGet : Json → String → Option Json
  | .obj fields, name =>
    fields.foldl (fun acc f => if f.1 = name then some f.2 else acc) none
  | _, _ => none

/-- Whether a JSON value is `null`. -/
def isNullJ : Json → Bool
  | .null => true
  | _ => false

mutual

/-- JS template-string conversion `${x}` of a JSON value. -/
def jsToString : Json → String
  | .null => "null"
  | .bool true => "true"
  | .bool false => "false"
  | .num n => String.mk (intChars n)
  | .str s => s
  | .arr xs => jsJoin xs
  | .obj _ => "[object Object]"

/-- `Array.prototype.join(",")`: `null` elements become empty strings. -/
def jsJoin : List Json → String
  | [] => ""
  | [x] => if isNullJ x then "" else jsToString x
  | x :: xs => (if isNullJ x then "" else jsToString x) ++ "," ++ jsJoin xs

end

/-- One iteration of the `applyState` edge loop (source lines 247–254):
skip non-arrays and arrays with fewer than 4 components, otherwise insert
the canonical key verbatim and increment both endpoint degrees with no
re-validation. -/
def applyOneEdge (g : GState) (e : Json) : GState :=
  match e with
  | .arr items =>
    if items.length < 4 then g
    else
      let ka := jsToString (items.getD 0 .null) ++ "," ++ jsToString (items.getD 1 .null)
      let kb := jsToString (items.getD 2 .null) ++ "," ++ jsToString (items.getD 3 .null)
      let k := edgeKeyK ka kb
      let d1 := degSet g.degree ka (g.degree ka + 1)
      let d2 := degSet d1 kb (d1 kb + 1)
      ⟨mapSet g.edges k, d2⟩
  | _ => g

/-- The `for (const e of obj.edges)` loop of `applyState`. -/
def applyEdgesLoop (es : List Json) (g : GState) : GState := es.foldl applyOneEdge g

/-- Source `applyState` (lines 242–265): clear both maps, re-add the edge
tuples, then defensively apply the viewport fields with clamping. -/
def applyState (st : AppState) (obj : Json) : AppState :=
  if jsTruthy obj = false then st
  else
    let g1 : GState :=
      match jsGet obj "edges" with
      | some (.arr es) => applyEdgesLoop es ⟨[], fun _ => 0⟩
      | _ => ⟨[], fun _ => 0⟩
    let st1 := { st with graph := g1 }
    match jsGet obj "viewport" with
    | some vp =>
      if jsTruthy vp && jsTypeofObject vp then
        let zoom2 :=
          match jsGet vp "zoom" with
          | some (.num z) => if 0 < z then (z : ℚ) else st1.zoom
          | _ => st1.zoom
        let cx0 :=
          match jsGet vp "cx" with
          | some (.num x) => (x : ℚ)
          | _ => st1.vcx
        let cy0 :=
          match jsGet vp "cy" with
          | some (.num y) => (y : ℚ)
          | _ => st1.vcy
        let w2 := st1.cw / zoom2
        let h2 := st1.ch / zoom2
        { st1 with
          zoom := zoom2
          vw := w2
          vh := h2
          vcx := max (w2 / 2) (min (fullWidth - w2 / 2) cx0)
          vcy := max (h2 / 2) (min (fullHeight - h2 / 2) cy0) }
      else st1
    | none => st1

/-- Source `fullToScreen` (lines 128–135). -/
def fullToScreen (st : AppState) (x y : ℚ) : ℚ × ℚ :=
  let l := st.vcx - st.vw / 2
  let t := st.vcy - st.vh / 2
  ((x - l) / st.vw * st.cw, (y - t) / st.vh * st.ch)

/-- Source `screenToFull` (lines 136–143). -/
def screenToFull (st : AppState) (sx sy : ℚ) : ℚ × ℚ :=
  let l := st.vcx - st.vw / 2
  let t := st.vcy - st.vh / 2
  (l + sx / st.cw * st.vw, t + sy / st.ch * st.vh)

/-- A hit-test candidate: squared world distance and the two endpoints. -/
structure Cand where
  dist : ℚ
  a : Node
  b : Node

/-- JS `Math.round` (round half toward positive infinity). -/
def jsRound (q : ℚ) : Int := ⌊q + 1 / 2⌋

/-- The loop offsets `dx, dy ∈ [-2, 2]` in source order. -/
def offsets : List Int := [-2, -1, 0, 1, 2]

/-- Update the best candidate when the new squared distance is strictly
smaller (`none` models the initial `Infinity`). -/
def maybeUpd (best : Option Cand) (d2 : ℚ) (a b : Node) : Option Cand :=
  match best with
  | none => some ⟨d2, a, b⟩
  | some c0 => if d2 < c0.dist then some ⟨d2, a, b⟩ else some c0

/-- Source `findNearestEdgeToFull` (lines 303–328): scan a 5×5 cell window
around the rounded lattice cell, considering the horizontal then the
vertical potential edge of each cell. -/
def findNearestEdgeToFull (fullX fullY : ℚ) : Option Cand :=
  let gx := (fullX - BORDER) / DOT_SPACING
  let gy := (fullY - BORDER) / DOT_SPACING
  let ix := jsRound gx
  let iy := jsRound gy
  offsets.foldl (fun b0 dx =>
    offsets.foldl (fun best dy =>
      let nx := ix + dx
      let ny := iy + dy
      let best1 :=
        if 0 ≤ nx ∧ nx + 1 < COLS ∧ 0 ≤ ny ∧ ny < ROWS then
          let ax := BORDER + (nx : ℚ) * DOT_SPACING
          let ay := BORDER + (ny : ℚ) * DOT_SPACING
          let bx := BORDER + ((nx : ℚ) + 1) * DOT_SPACING
          let mx := (ax + bx) / 2
          let my := (ay + ay) / 2
          let d2 := (mx - fullX) ^ 2 + (my - fullY) ^ 2
          maybeUpd best d2 ⟨nx, ny⟩ ⟨nx + 1, ny⟩
        else best
      if 0 ≤ nx ∧ nx < COLS ∧ 0 ≤ ny ∧ ny + 1 < ROWS then
        let ax := BORDER + (nx : ℚ) * DOT_SPACING
        let ay := BORDER + (ny : ℚ) * DOT_SPACING
        let by2 := BORDER + ((ny : ℚ) + 1) * DOT_SPACING
        let mx := (ax + ax) / 2
        let my := (ay + by2) / 2
        let d2 := (mx - fullX) ^ 2 + (my - fullY) ^ 2
        maybeUpd best1 d2 ⟨nx, ny⟩ ⟨nx, ny + 1⟩
      else best1) b0) none

/-- Hit acceptance (source lines 371–373): the exact-real equivalent of
`sqrt(dist) * (canvas.width / viewport.w) ≤ EDGE_HIT_RADIUS` (for a
non-positive ratio the real comparison is trivially true since `dist ≥ 0`
and the radius is positive). -/
def hitAccept (d : ℚ) (st : AppState) : Bool :=
  let r := st.cw / st.vw
  decide (r ≤ 0) || decide (d * r ^ 2 ≤ EDGE_HIT_RADIUS ^ 2)

/-- Source `pointermove` handler (lines 343–356). -/
def pointermove (st : AppState) (evX evY : ℚ) : AppState :=
  if st.isPointerDown = false then st
  else
    match st.pointerStart with
    | none => st
    | some ps =>
      let dx := evX - ps.x
      let dy := evY - ps.y
      let dragging := st.isDragging || decide (dx ^ 2 + dy ^ 2 > 6 ^ 2)
      if dragging then
        let fx := -dx * (st.vw / st.cw)
        let fy := -dy * (st.vh / st.ch)
        { st with
          isDragging := true
          vcx := max (st.vw / 2) (min (fullWidth - st.vw / 2) (ps.cx + fx))
          vcy := max (st.vh / 2) (min (fullHeight - st.vh / 2) (ps.cy + fy)) }
      else st

/-- Source `pointerup` handler (lines 358–383).  The `rectL`/`rectT`
arguments are the canvas bounding-rectangle offsets. -/
def pointerup (st : AppState) (evX evY rectL rectT : ℚ) : AppState :=
  if st.isPointerDown = false then st
  else
    match st.pointerStart with
    | none =>
      { st with isPointerDown := false, pointerStart := none, isDragging := false }
    | some ps =>
      let st0 := { st with isPointerDown := false }
      let dx := evX - ps.x
      let dy := evY - ps.y
      let st1 :=
        if st0.isDragging = false ∧ dx ^ 2 + dy ^ 2 ≤ 6 ^ 2 then
          let sx := evX - rectL
          let sy := evY - rectT
          let full := screenToFull st0 sx sy
          match findNearestEdgeToFull full.1 full.2 with
          | some nearest =>
            if hitAccept nearest.dist st0 then
              if hasEdge st0.graph nearest.a nearest.b then
                { st0 with graph := (removeEdge st0.graph nearest.a nearest.b).1 }
              else
                { st0 with graph := (addEdge st0.graph nearest.a nearest.b).1 }
            else st0
          | none => st0
        else st0
      { st1 with pointerStart := none, isDragging := false }

/-- Source `keydown` handler (lines 483–493); the step is computed once at
entry, then each key test runs in source order. -/
def keydown (st : AppState) (key : String) : AppState :=
  let step := max 10 (0.06 * min st.vw st.vh)
  let st1 := if key = "ArrowLeft" then
      { st with vcx := max (st.vw / 2) (st.vcx - step) } else st
  let st2 := if key = "ArrowRight" then
      { st1 with vcx := min (fullWidth - st1.vw / 2) (st1.vcx + step) } else st1
  let st3 := if key = "ArrowUp" then
      { st2 with vcy := max (st2.vh / 2) (st2.vcy - step) } else st2
  let st4 := if key = "ArrowDown" then
      { st3 with vcy := min (fullHeight - st3.vh / 2) (st3.vcy + step) } else st3
  let st5 := if key = "+" ∨ key = "=" then
      let z := min 8 (st4.zoom * 1.2)
      { st4 with zoom := z, vw := st4.cw / z, vh := st4.ch / z } else st4
  if key = "-" ∨ key = "_" then
    let z := max 0.6 (st5.zoom / 1.2)
    { st5 with zoom := z, vw := st5.cw / z, vh := st5.ch / z }
  else st5

/-- Source `resize` handler (lines 473–480): `resizeCanvas` then the
recompute-and-clamp with the falsy `cx || w/2` guard. -/
def resizeHandler (st : AppState) (newW newH : ℚ) : AppState :=
  let st1 := { st with
    cw := newW
    ch := newH
    vw := newW / st.zoom
    vh := newH / st.zoom }
  let cx0 := if st1.vcx = 0 then st1.vw / 2 else st1.vcx
  let cy0 := if st1.vcy = 0 then st1.vh / 2 else st1.vcy
  { st1 with
    vcx := max (st1.vw / 2) (min (fullWidth - st1.vw / 2) cx0)
    vcy := max (st1.vh / 2) (min (fullHeight - st1.vh / 2) cy0) }


/-- A concrete post-initialization state used to instantiate theorems:
zoom 3.2, canvas 640×480, viewport 200×150 centered at (100, 75). -/
def sampleState : AppState where
  graph := emptyG
  zoom := 3.2
  vcx := 100
  vcy := 75
  vw := 200
  vh := 150
  cw := 640
  ch := 480
  isPointerDown := false
  isDragging := false
  pointerStart := none

/-- A mid-drag state whose pan would push the center to −50. -/
def dragSt : AppState :=
  { sampleState with
    vcx := 0
    cw := 200
    isPointerDown := true
    pointerStart := some ⟨0, 0, 0, 75⟩ }

/-- A zoomed-to-1 state filling the world width, about to zoom out. -/
def zoomOutSt : AppState :=
  { sampleState with
    zoom := 1
    cw := 1179
    vw := 1179
    vh := 480
    vcx := 1179 / 2 }

/-- Whether a JSON value is an array of length at least 4 (the only tuples
the `applyState` edge loop does not skip). -/
def isLongArr : Json → Bool
  | .arr items => decide (4 ≤ items.length)
  | _ => false


/-- A mid-drag state whose viewport is wider than the world. -/
def oversizedSt : AppState :=
  { sampleState with
    vw := 2400
    cw := 2400
    vcx := fullWidth / 2
    isPointerDown := true
    pointerStart := some ⟨0, 0, fullWidth / 2, 75⟩ }

/-- The graph produced by the `applyState` edge loop from the decoded
object (empty when the `edges` field is absent or not an array). -/
def loadGraph (obj : Json) : GState :=
  match jsGet obj "edges" with
  | some (.arr es) => applyEdgesLoop es ⟨[], fun _ => 0⟩
  | _ => ⟨[], fun _ => 0⟩

/-- The zoom taken from a decoded viewport object: the positive number in
its `zoom` field, otherwise the current zoom. -/
def vpZoom (vp : Json) (cur : ℚ) : ℚ :=
  match jsGet vp "zoom" with
  | some (.num z) => if 0 < z then (z : ℚ) else cur
  | _ => cur

/-- A numeric field of a decoded viewport object, defaulting to the
current value. -/
def vpNum (vp : Json) (field : String) (cur : ℚ) : ℚ :=
  match jsGet vp field with
  | some (.num x) => (x : ℚ)
  | _ => cur

/-! ## Theorems -/

theorem charVal_digitChar {d : Nat} (h : d < 10) : charVal (digitChar d) = d := by
  interval_cases d <;> decide

theorem isDigit_digitChar {d : Nat} (h : d < 10) : (digitChar d).isDigit = true := by
  interval_cases d <;> decide

theorem natCharsAux_digits {fuel n : Nat} (h : n ≤ fuel) :
    ∀ c ∈ natCharsAux fuel n, c.isDigit = true := by
  induction fuel generalizing n with
  | zero => simp [natCharsAux]
  | succ fuel ih =>
    intro c hc
    rw [natCharsAux] at hc
    by_cases h0 : n = 0
    · simp [h0] at hc
    · simp only [h0, if_false, List.mem_append, List.mem_singleton] at hc
      rcases hc with hc | hc
      · exact ih (by omega : n / 10 ≤ fuel) c hc
      · subst hc; exact isDigit_digitChar (Nat.mod_lt _ (by omega))

theorem natChars_digits (n : Nat) : ∀ c ∈ natChars n, c.isDigit = true := by
  unfold natChars
  by_cases h0 : n = 0
  · simp [h0]
  · simp only [h0, if_false]
    exact natCharsAux_digits le_rfl

theorem foldl_natCharsAux {fuel n : Nat} (h : n ≤ fuel) (acc : Nat) :
    (natCharsAux fuel n).foldl (fun acc c => acc * 10 + charVal c) acc =
      acc * 10 ^ (natCharsAux fuel n).length + n := by
  induction fuel generalizing n acc with
  | zero =>
    interval_cases n
    simp [natCharsAux]
  | succ fuel ih =>
    rw [natCharsAux]
    by_cases h0 : n = 0
    · simp [h0]
    · simp only [h0, if_false, List.foldl_append, List.foldl_cons, List.foldl_nil,
        List.length_append, List.length_cons, List.length_nil]
      rw [ih (by omega : n / 10 ≤ fuel) acc]
      rw [charVal_digitChar (Nat.mod_lt _ (by omega))]
      rw [pow_succ]
      have := Nat.div_add_mod n 10
      ring_nf
      omega

theorem charsVal_natChars (n : Nat) : charsVal (natChars n) = n := by
  unfold charsVal natChars
  by_cases h0 : n = 0
  · simp [h0]; decide
  · simp only [h0, if_false]
    rw [foldl_natCharsAux le_rfl]
    simp

theorem natChars_injective : Function.Injective natChars := by
  intro a b h
  have := charsVal_natChars a
  rw [h, charsVal_natChars] at this
  omega

theorem natChars_ne_nil (n : Nat) : natChars n ≠ [] := by
  unfold natChars
  by_cases h0 : n = 0
  · simp [h0]
  · simp only [h0, if_false]
    cases n with
    | zero => omega
    | succ m =>
      rw [natCharsAux]
      simp only [Nat.succ_ne_zero, if_false]
      intro hh
      have := List.append_eq_nil.mp hh
      exact absurd this.2 (by simp)

theorem dash_not_digit : ('-' : Char).isDigit = false := by decide

theorem natChars_no_dash (n : Nat) : '-' ∉ natChars n := by
  intro h
  have := natChars_digits n _ h
  simp [dash_not_digit] at this

theorem intChars_injective : Function.Injective intChars := by
  intro a b h
  cases a with
  | ofNat m =>
    cases b with
    | ofNat k =>
      simp only [intChars] at h
      exact congrArg Int.ofNat (natChars_injective h)
    | negSucc k =>
      simp only [intChars] at h
      exact absurd (h ▸ List.mem_cons_self '-' _) (natChars_no_dash m)
  | negSucc m =>
    cases b with
    | ofNat k =>
      simp only [intChars] at h
      exact absurd (h.symm ▸ List.mem_cons_self '-' _) (natChars_no_dash k)
    | negSucc k =>
      simp only [intChars, List.cons.injEq, true_and] at h
      have := natChars_injective h
      exact congrArg Int.negSucc (by omega)

theorem intChars_chars (i : Int) : ∀ c ∈ intChars i, c.isDigit = true ∨ c = '-' := by
  cases i with
  | ofNat m => exact fun c hc => Or.inl (natChars_digits m c hc)
  | negSucc m =>
    intro c hc
    rcases List.mem_cons.mp hc with hc | hc
    · exact Or.inr hc
    · exact Or.inl (natChars_digits _ c hc)

theorem comma_notin_intChars (i : Int) : ',' ∉ intChars i := by
  intro h
  rcases intChars_chars i ',' h with h' | h' <;> simp at h'

theorem pipe_notin_intChars (i : Int) : '|' ∉ intChars i := by
  intro h
  rcases intChars_chars i '|' h with h' | h' <;> simp at h'

/-! ## Splitting a character list at a separator

Used both to recover the forced split point of the `x,y` node keys and as
the claim-level notion of the two endpoint keys of an `a|b` edge key (the
source's single-character `k.split("|")`). -/

theorem splitCh_ne_nil (sep : Char) (l : List Char) : splitCh sep l ≠ [] := by
  cases l with
  | nil => simp [splitCh]
  | cons c cs =>
    rw [splitCh]
    by_cases h : c = sep
    · simp [h]
    · simp only [h, if_false]
      cases splitCh sep cs <;> simp

theorem splitCh_no_sep {sep : Char} {l : List Char} (h : sep ∉ l) :
    splitCh sep l = [l] := by
  induction l with
  | nil => rfl
  | cons c cs ih =>
    rw [splitCh]
    have hc : ¬ c = sep := fun hh => h (hh ▸ List.mem_cons_self c cs)
    simp only [hc, if_false]
    rw [ih (fun hh => h (List.mem_cons_of_mem c hh))]

theorem splitCh_append {sep : Char} {la : List Char} (lb : List Char) (h : sep ∉ la) :
    splitCh sep (la ++ sep :: lb) = la :: splitCh sep lb := by
  induction la with
  | nil => simp [splitCh]
  | cons c cs ih =>
    have hc : ¬ c = sep := fun hh => h (hh ▸ List.mem_cons_self c cs)
    rw [List.cons_append, splitCh]
    simp only [hc, if_false]
    rw [ih (fun hh => h (List.mem_cons_of_mem c hh))]

/-! ## Node and edge keys (source lines 100–104)

```js
const nodeKey = (x,y) => `${x},${y}`;
const edgeKey = (a,b) => {
  const ka = nodeKey(a.x,a.y), kb = nodeKey(b.x,b.y);
  return ka < kb ? ka + '|' + kb : kb + '|' + ka;
};
```
The JS `<` on strings is lexicographic comparison of code units, which for
these ASCII keys coincides with Lean's `String` order. -/

/-- A lattice node `{x, y}` as the interactive code passes it around. -/

theorem nodeKey_injective : Function.Injective nodeKey := by
  intro a b h
  have hd : intChars a.x ++ ',' :: intChars a.y = intChars b.x ++ ',' :: intChars b.y :=
    congrArg String.data h
  -- split both sides at the comma: the comma occurs in neither rendered
  -- coordinate, so the split point is forced.
  have hs := congrArg (splitCh ',') hd
  rw [splitCh_append _ (comma_notin_intChars a.x),
      splitCh_append _ (comma_notin_intChars b.x),
      splitCh_no_sep (comma_notin_intChars a.y),
      splitCh_no_sep (comma_notin_intChars b.y)] at hs
  simp only [List.cons.injEq, and_true] at hs
  cases a; cases b
  simp only [Node.mk.injEq]
  exact ⟨intChars_injective hs.1, intChars_injective hs.2⟩

theorem edgeKeyK_comm (ka kb : String) : edgeKeyK ka kb = edgeKeyK kb ka := by
  unfold edgeKeyK
  rcases lt_trichotomy ka kb with h | h | h
  · simp [h, not_lt_of_gt h]
  · simp [h]
  · simp [h, not_lt_of_gt h]

theorem edgeKey_comm (a b : Node) : edgeKey a b = edgeKey b a := edgeKeyK_comm _ _

/-! ## Incidence via splitting at `'|'`

An edge key is incident to a node exactly when the node's key is one of the
two parts obtained by splitting the edge key at the `'|'` separator. -/

/-- The two endpoint keys of an edge key (`k.split("|")` in the source). -/

theorem pipe_notin_nodeKey (n : Node) : '|' ∉ (nodeKey n).data := by
  simp only [nodeKey]
  intro h
  rcases List.mem_append.mp h with h | h
  · exact pipe_notin_intChars _ h
  · rcases List.mem_cons.mp h with h | h
    · simp at h
    · exact pipe_notin_intChars _ h

theorem keyParts_edgeKeyK {ka kb : String}
    (ha : '|' ∉ ka.data) (hb : '|' ∉ kb.data) :
    keyParts (edgeKeyK ka kb) = [ka, kb] ∨ keyParts (edgeKeyK ka kb) = [kb, ka] := by
  unfold edgeKeyK keyParts
  by_cases h : ka < kb
  · left
    simp only [h, if_true]
    have he : (ka ++ "|" ++ kb).data = ka.data ++ '|' :: kb.data := by
      simp [String.data_append]
    rw [he, splitCh_append _ ha, splitCh_no_sep hb]
    simp
  · right
    simp only [h, if_false]
    have he : (kb ++ "|" ++ ka).data = kb.data ++ '|' :: ka.data := by
      simp [String.data_append]
    rw [he, splitCh_append _ hb, splitCh_no_sep ha]
    simp

theorem incident_edgeKey (nk : String) (a b : Node) :
    incidentB nk (edgeKey a b) = true ↔ nk = nodeKey a ∨ nk = nodeKey b := by
  unfold incidentB edgeKey
  rcases keyParts_edgeKeyK (pipe_notin_nodeKey a) (pipe_notin_nodeKey b) with h | h <;>
    rw [h] <;> simp [or_comm]

/-! ## Graph state (source lines 96–126)

The JS `Map`s become: an insertion-ordered duplicate-free list of edge keys,
and a total degree function defaulting to `0` (in every read the source
coalesces both a missing entry and a stored `0` the same way, so the total
function is observationally faithful). -/

/-- The mutable graph portion of the script's global state. -/

theorem incidentCount_append_single (nk : String) (l : List String) (k : String) :
    incidentCount nk (l ++ [k]) =
      incidentCount nk l + (if incidentB nk k then 1 else 0) := by
  unfold incidentCount
  rw [List.filter_append]
  by_cases h : incidentB nk k <;> simp [h]

theorem incidentCount_pos {nk k : String} {l : List String}
    (hk : k ∈ l) (hi : incidentB nk k = true) : 1 ≤ incidentCount nk l := by
  unfold incidentCount
  have : k ∈ l.filter (fun k => incidentB nk k) := List.mem_filter.mpr ⟨hk, hi⟩
  have := List.length_pos.mpr (List.ne_nil_of_mem this)
  omega

theorem incidentCount_erase {k : String} {l : List String}
    (hnd : l.Nodup) (hk : k ∈ l) (nk : String) :
    incidentCount nk (l.erase k) =
      incidentCount nk l - (if incidentB nk k then 1 else 0) := by
  have hperm : List.Perm l (k :: l.erase k) := List.perm_cons_erase hk
  have hlen := (hperm.filter (fun k => incidentB nk k)).length_eq
  unfold incidentCount
  rw [hlen, List.filter_cons]
  by_cases h : incidentB nk k <;> simp [h]

theorem incidentCount_nonneg (nk : String) (l : List String) :
    0 ≤ incidentCount nk l := by
  unfold incidentCount; positivity

/-! ## Operation sequences and the degree invariant (claim C1)

The spec requires `addEdge`/`removeEdge` arguments to be lattice-adjacent
in-bounds nodes (the interactive caller only ever produces such pairs), so
the invariant is proved for sequences of operations on such pairs. -/

/-- An interactive mutation of the graph. -/

theorem validPair_ne {a b : Node} (h : validPair a b) : a ≠ b := by
  rintro rfl
  have := h.2.2
  unfold adjacentN at this
  simp at this

/-- The C1 invariant: every node's degree entry equals the number of edges
incident to it, and is at most 2. -/

theorem invFull_empty : InvFull emptyG := by
  refine ⟨List.nodup_nil, fun n => ⟨rfl, by norm_num [emptyG]⟩⟩

theorem addEdge_invFull {s : GState} {a b : Node}
    (hv : validPair a b) (hI : InvFull s) : InvFull (addEdge s a b).1 := by
  obtain ⟨hnd, hdeg⟩ := hI
  unfold addEdge
  by_cases hmem : edgeKey a b ∈ s.edges
  · simpa [hmem] using And.intro hnd hdeg
  · simp only [hmem, if_false]
    by_cases hcap : s.degree (nodeKey a) ≥ 2 ∨ s.degree (nodeKey b) ≥ 2
    · simpa [hcap] using And.intro hnd hdeg
    · simp only [hcap, if_false]
      push_neg at hcap
      refine ⟨List.nodup_append.mpr ⟨hnd, List.nodup_singleton _,
        by simpa [List.disjoint_singleton] using hmem⟩, fun n => ?_⟩
      rw [incidentCount_append_single]
      simp only [degSet]
      by_cases hkb : nodeKey n = nodeKey b
      · have hincT : incidentB (nodeKey n) (edgeKey a b) = true :=
          (incident_edgeKey _ a b).mpr (Or.inr hkb)
        rw [if_pos hkb, if_pos hincT, hkb]
        have he := (hdeg b).1
        have := hcap.2
        exact ⟨by omega, by omega⟩
      · rw [if_neg hkb]
        by_cases hka : nodeKey n = nodeKey a
        · have hincT : incidentB (nodeKey n) (edgeKey a b) = true :=
            (incident_edgeKey _ a b).mpr (Or.inl hka)
          rw [if_pos hka, if_pos hincT, hka]
          have he := (hdeg a).1
          have := hcap.1
          exact ⟨by omega, by omega⟩
        · have hincF : ¬ incidentB (nodeKey n) (edgeKey a b) = true := fun hT => by
            rcases (incident_edgeKey _ a b).mp hT with h | h
            exacts [hka h, hkb h]
          rw [if_neg hka, if_neg hincF]
          obtain ⟨he, hle⟩ := hdeg n
          exact ⟨by omega, hle⟩

theorem removeEdge_invFull {s : GState} {a b : Node}
    (hv : validPair a b) (hI : InvFull s) : InvFull (removeEdge s a b).1 := by
  obtain ⟨hnd, hdeg⟩ := hI
  unfold removeEdge
  by_cases hmem : edgeKey a b ∈ s.edges
  · simp only [hmem, if_true]
    have hab : a ≠ b := validPair_ne hv
    have hkab : nodeKey a ≠ nodeKey b := fun h => hab (nodeKey_injective h)
    have hia : incidentB (nodeKey a) (edgeKey a b) = true :=
      (incident_edgeKey _ a b).mpr (Or.inl rfl)
    have hib : incidentB (nodeKey b) (edgeKey a b) = true :=
      (incident_edgeKey _ a b).mpr (Or.inr rfl)
    have hda : 1 ≤ s.degree (nodeKey a) := by
      rw [(hdeg a).1]; exact incidentCount_pos hmem hia
    have hdb : 1 ≤ s.degree (nodeKey b) := by
      rw [(hdeg b).1]; exact incidentCount_pos hmem hib
    have hOr1a : jsOr1 (s.degree (nodeKey a)) = s.degree (nodeKey a) := by
      unfold jsOr1; rw [if_neg (by omega)]
    refine ⟨hnd.erase _, fun n => ?_⟩
    rw [incidentCount_erase hnd hmem]
    simp only [degSet]
    by_cases hkb : nodeKey n = nodeKey b
    · have hincT : incidentB (nodeKey n) (edgeKey a b) = true :=
        (incident_edgeKey _ a b).mpr (Or.inr hkb)
      have hne : ¬ nodeKey b = nodeKey a := fun h => hkab h.symm
      rw [if_pos hkb, if_pos hincT, hkb, if_neg hne]
      have hOr1b : jsOr1 (s.degree (nodeKey b)) = s.degree (nodeKey b) := by
        unfold jsOr1; rw [if_neg (by omega)]
      rw [hOr1b]
      have he := (hdeg b).1
      have hle := (hdeg b).2
      exact ⟨by omega, by omega⟩
    · rw [if_neg hkb]
      by_cases hka : nodeKey n = nodeKey a
      · have hincT : incidentB (nodeKey n) (edgeKey a b) = true :=
          (incident_edgeKey _ a b).mpr (Or.inl hka)
        rw [if_pos hincT, hka, if_pos rfl, hOr1a]
        have he := (hdeg a).1
        have hle := (hdeg a).2
        exact ⟨by omega, by omega⟩
      · have hincF : ¬ incidentB (nodeKey n) (edgeKey a b) = true := fun hT => by
          rcases (incident_edgeKey _ a b).mp hT with h | h
          exacts [hka h, hkb h]
        rw [if_neg hka, if_neg hincF]
        obtain ⟨he, hle⟩ := hdeg n
        exact ⟨by omega, hle⟩
  · simpa [hmem] using And.intro hnd hdeg

theorem foldl_invFull :
    ∀ (ops : List GOp) (start : GState), (∀ op ∈ ops, validOp op) →
      InvFull start → InvFull (ops.foldl stepOp start)
  | [], _, _, hs => hs
  | op :: rest, start, hv, hs => by
    have hop := hv op (List.mem_cons_self _ _)
    have hrest : ∀ o ∈ rest, validOp o := fun o ho => hv o (List.mem_cons_of_mem _ ho)
    have hstep : InvFull (stepOp start op) := by
      cases op with
      | add a b => exact addEdge_invFull hop hs
      | remove a b => exact removeEdge_invFull hop hs
    exact foldl_invFull rest (stepOp start op) hrest hstep

theorem runOps_invFull (ops : List GOp) (hv : ∀ op ∈ ops, validOp op) :
    InvFull (runOps ops) := foldl_invFull ops emptyG hv invFull_empty

/-- C1: for every sequence of `addEdge` and `removeEdge` operations starting
from the empty graph (arguments satisfying the spec's lattice-adjacent,
in-bounds precondition), after every operation and for every node `n`,
`degree(n)` equals the number of edges in the edge set incident to `n`, and
`degree(n)` never exceeds 2.  (Quantifying over all valid sequences covers
every prefix, hence "after every operation".) -/

theorem claim_C1_degree_invariant (ops : List GOp) (hv : ∀ op ∈ ops, validOp op) :
    ∀ n : Node,
      (runOps ops).degree (nodeKey n) = incidentCount (nodeKey n) (runOps ops).edges ∧
      (runOps ops).degree (nodeKey n) ≤ 2 :=
  (runOps_invFull ops hv).2

/-- Witness for C1 at a concrete valid operation sequence. -/

theorem claim_C1_degree_invariant_witness :
    (∀ op ∈ [GOp.add ⟨5, 5⟩ ⟨6, 5⟩, GOp.add ⟨5, 5⟩ ⟨5, 6⟩, GOp.remove ⟨5, 5⟩ ⟨6, 5⟩],
        validOp op) ∧
    (∀ n : Node,
      (runOps [GOp.add ⟨5, 5⟩ ⟨6, 5⟩, GOp.add ⟨5, 5⟩ ⟨5, 6⟩,
          GOp.remove ⟨5, 5⟩ ⟨6, 5⟩]).degree (nodeKey n) =
        incidentCount (nodeKey n)
          (runOps [GOp.add ⟨5, 5⟩ ⟨6, 5⟩, GOp.add ⟨5, 5⟩ ⟨5, 6⟩,
              GOp.remove ⟨5, 5⟩ ⟨6, 5⟩]).edges ∧
      (runOps [GOp.add ⟨5, 5⟩ ⟨6, 5⟩, GOp.add ⟨5, 5⟩ ⟨5, 6⟩,
          GOp.remove ⟨5, 5⟩ ⟨6, 5⟩]).degree (nodeKey n) ≤ 2) :=
  ⟨by decide, claim_C1_degree_invariant _ (by decide)⟩

/-- C3: `addEdge(a,b)` returns the failure indicator and leaves the state
unchanged iff the edge is already present or either endpoint is at degree 2
(for states satisfying the degree invariant and spec-valid argument pairs);
on success it appends the canonical key and increments both endpoints'
degrees by one; and calling `addEdge(a,b)` twice leaves the edge set
unchanged after the second call. -/

theorem claim_C3_addEdge (s : GState) (a b : Node) (hI : DegInv s) (hv : validPair a b) :
    ((addEdge s a b).2 = false ↔
        hasEdge s a b = true ∨ s.degree (nodeKey a) = 2 ∨ s.degree (nodeKey b) = 2) ∧
    ((addEdge s a b).2 = false → (addEdge s a b).1 = s) ∧
    ((addEdge s a b).2 = true →
        (addEdge s a b).1.edges = s.edges ++ [edgeKey a b] ∧
        (addEdge s a b).1.degree (nodeKey a) = s.degree (nodeKey a) + 1 ∧
        (addEdge s a b).1.degree (nodeKey b) = s.degree (nodeKey b) + 1) ∧
    (addEdge (addEdge s a b).1 a b).1.edges = (addEdge s a b).1.edges := by
  have hkab : nodeKey a ≠ nodeKey b := fun h => validPair_ne hv (nodeKey_injective h)
  by_cases hmem : edgeKey a b ∈ s.edges
  · have hfail : addEdge s a b = (s, false) := by rw [addEdge, if_pos hmem]
    refine ⟨?_, fun _ => by rw [hfail], fun h => by rw [hfail] at h; exact absurd h (by simp),
      ?_⟩
    · rw [hfail]
      simp only [true_iff]
      exact Or.inl (by simpa [hasEdge] using hmem)
    · rw [hfail]
      show (addEdge s a b).1.edges = s.edges
      rw [hfail]
  · by_cases hcap : s.degree (nodeKey a) ≥ 2 ∨ s.degree (nodeKey b) ≥ 2
    · have hfail : addEdge s a b = (s, false) := by
        rw [addEdge, if_neg hmem, if_pos hcap]
      refine ⟨?_, fun _ => by rw [hfail], fun h => by rw [hfail] at h; exact absurd h (by simp),
        ?_⟩
      · rw [hfail]
        simp only [true_iff]
        rcases hcap with h | h
        · exact Or.inr (Or.inl (le_antisymm (hI a).2 h))
        · exact Or.inr (Or.inr (le_antisymm (hI b).2 h))
      · rw [hfail]
        show (addEdge s a b).1.edges = s.edges
        rw [hfail]
    · have hsucc : addEdge s a b =
          ({ edges := s.edges ++ [edgeKey a b],
             degree := degSet (degSet s.degree (nodeKey a) (s.degree (nodeKey a) + 1))
               (nodeKey b) (s.degree (nodeKey b) + 1) }, true) := by
        rw [addEdge, if_neg hmem, if_neg hcap]
      push_neg at hcap
      refine ⟨?_, ?_, fun _ => ?_, ?_⟩
      · rw [hsucc]
        simp only [Bool.true_eq_false, false_iff]
        push_neg
        refine ⟨by simpa [hasEdge] using hmem, by omega, by omega⟩
      · rw [hsucc]; intro h; exact absurd h (by simp)
      · rw [hsucc]
        refine ⟨rfl, ?_, ?_⟩
        · simp [degSet, hkab]
        · simp [degSet]
      · rw [hsucc]
        have hmem2 : edgeKey a b ∈ s.edges ++ [edgeKey a b] := by simp
        rw [addEdge, if_pos hmem2]

/-! ## JSON values

The state object handled by `JSON.stringify` / `JSON.parse` in the source.
Numbers are embedded as `Int` (exact arithmetic; every number the program
serializes is integral in the model). -/

theorem skipWs_cons_of_not_ws {c : Char} (h : jsonWs c = false) (cs : List Char) :
    skipWs (c :: cs) = c :: cs := by
  unfold skipWs
  rw [h]
  simp

/-- Witness for C3 at the empty graph and the adjacent pair (5,5)-(6,5). -/
theorem claim_C3_addEdge_witness :
    DegInv emptyG ∧ validPair ⟨5, 5⟩ ⟨6, 5⟩ ∧
    (((addEdge emptyG ⟨5, 5⟩ ⟨6, 5⟩).2 = false ↔
        hasEdge emptyG ⟨5, 5⟩ ⟨6, 5⟩ = true ∨
          emptyG.degree (nodeKey ⟨5, 5⟩) = 2 ∨ emptyG.degree (nodeKey ⟨6, 5⟩) = 2) ∧
      ((addEdge emptyG ⟨5, 5⟩ ⟨6, 5⟩).2 = false → (addEdge emptyG ⟨5, 5⟩ ⟨6, 5⟩).1 = emptyG) ∧
      ((addEdge emptyG ⟨5, 5⟩ ⟨6, 5⟩).2 = true →
        (addEdge emptyG ⟨5, 5⟩ ⟨6, 5⟩).1.edges = emptyG.edges ++ [edgeKey ⟨5, 5⟩ ⟨6, 5⟩] ∧
        (addEdge emptyG ⟨5, 5⟩ ⟨6, 5⟩).1.degree (nodeKey ⟨5, 5⟩) =
          emptyG.degree (nodeKey ⟨5, 5⟩) + 1 ∧
        (addEdge emptyG ⟨5, 5⟩ ⟨6, 5⟩).1.degree (nodeKey ⟨6, 5⟩) =
          emptyG.degree (nodeKey ⟨6, 5⟩) + 1) ∧
      (addEdge (addEdge emptyG ⟨5, 5⟩ ⟨6, 5⟩).1 ⟨5, 5⟩ ⟨6, 5⟩).1.edges =
        (addEdge emptyG ⟨5, 5⟩ ⟨6, 5⟩).1.edges) :=
  ⟨fun n => ⟨rfl, by norm_num [emptyG]⟩, by decide,
    claim_C3_addEdge emptyG ⟨5, 5⟩ ⟨6, 5⟩ (fun n => ⟨rfl, by norm_num [emptyG]⟩) (by decide)⟩

/-! ### Printer–parser agreement lemmas -/

theorem isDigit_ne {c : Char} (h : c.isDigit = true) {d : Char}
    (hd : d.isDigit = false) : c ≠ d :=
  fun he => by rw [he, hd] at h; cases h

theorem takeWhile_digits_append {ds rest : List Char}
    (hds : ∀ c ∈ ds, c.isDigit = true) (hr : noDigitHead rest) :
    (ds ++ rest).takeWhile Char.isDigit = ds ∧
    (ds ++ rest).dropWhile Char.isDigit = rest := by
  induction ds with
  | nil =>
    simp only [List.nil_append]
    cases rest with
    | nil => simp
    | cons c cs =>
      have hc : c.isDigit = false := by
        have := hr
        simp only [noDigitHead] at this
        exact Bool.not_eq_true _ ▸ Bool.of_not_eq_true this
      simp [List.takeWhile_cons, List.dropWhile_cons, hc]
  | cons d ds ih =>
    have hd := hds d (List.mem_cons_self _ _)
    have hrest := ih (fun c hc => hds c (List.mem_cons_of_mem _ hc))
    simp [List.takeWhile_cons, List.dropWhile_cons, hd, hrest.1, hrest.2]

theorem span_digits_append {ds rest : List Char}
    (hds : ∀ c ∈ ds, c.isDigit = true) (hr : noDigitHead rest) :
    (ds ++ rest).span Char.isDigit = (ds, rest) := by
  have h := takeWhile_digits_append hds hr
  rw [List.span_eq_take_drop, h.1, h.2]

theorem parseNumber_intChars (i : Int) {rest : List Char} (hr : noDigitHead rest) :
    parseNumber (intChars i ++ rest) = some (i, rest) := by
  cases i with
  | ofNat n =>
    obtain ⟨c, cs, hc⟩ : ∃ c cs, natChars n = c :: cs := by
      cases h : natChars n with
      | nil => exact absurd h (natChars_ne_nil n)
      | cons c cs => exact ⟨c, cs, rfl⟩
    have hcd : c.isDigit = true := natChars_digits n c (by rw [hc]; exact List.mem_cons_self _ _)
    have hspan : ((c :: cs) ++ rest).span Char.isDigit = (c :: cs, rest) :=
      span_digits_append (by rw [← hc]; exact natChars_digits n) hr
    simp only [intChars, hc, List.cons_append]
    rw [parseNumber]
    rw [if_neg (isDigit_ne hcd (by decide))]
    rw [← List.cons_append, hspan]
    simp only [List.isEmpty_cons, if_false]
    rw [← hc, charsVal_natChars]
    simp
  | negSucc n =>
    have hspan : (natChars (n + 1) ++ rest).span Char.isDigit = (natChars (n + 1), rest) :=
      span_digits_append (natChars_digits _) hr
    simp only [intChars, List.cons_append]
    rw [parseNumber, if_pos rfl, hspan]
    have hne : (natChars (n + 1)).isEmpty = false := by
      cases h : natChars (n + 1) with
      | nil => exact absurd h (natChars_ne_nil _)
      | cons c cs => simp
    simp only [hne, Bool.false_eq_true, if_false, charsVal_natChars]
    simp [Int.negSucc_eq]

theorem escapeChar_clean {c : Char} (h : cleanChar c) : escapeChar c = [c] := by
  obtain ⟨h1, h2, h3, h4⟩ := h
  unfold escapeChar
  rw [if_neg h3, if_neg h4]
  rw [if_neg (fun he => by subst he; exact absurd h1 (by decide))]
  rw [if_neg (fun he => by subst he; exact absurd h1 (by decide))]
  rw [if_neg (fun he => by subst he; exact absurd h1 (by decide))]
  rw [if_neg (by omega)]
  rw [if_neg (by omega)]
  rw [if_neg (by omega)]

theorem strLit_clean {l : List Char} (h : ∀ c ∈ l, cleanChar c) :
    l.foldr (fun c acc => escapeChar c ++ acc) ['"'] = l ++ ['"'] := by
  induction l with
  | nil => rfl
  | cons c cs ih =>
    simp only [List.foldr_cons, List.cons_append]
    rw [escapeChar_clean (h c (List.mem_cons_self _ _)),
      ih (fun c hc => h c (List.mem_cons_of_mem _ hc))]
    rfl

theorem strLit_clean_eq {s : String} (h : cleanStr s) :
    strLit s = '"' :: (s.data ++ ['"']) := by
  unfold strLit
  rw [strLit_clean h]

theorem parseStrAux_clean {l : List Char} (rest : List Char)
    (h : ∀ c ∈ l, cleanChar c) :
    parseStrAux (l ++ '"' :: rest) = some (l, rest) := by
  induction l with
  | nil =>
    rw [List.nil_append, parseStrAux.eq_def]
    dsimp only
    rw [if_pos rfl]
  | cons c cs ih =>
    obtain ⟨h1, h2, h3, h4⟩ := h c (List.mem_cons_self _ _)
    rw [List.cons_append, parseStrAux.eq_def]
    dsimp only
    rw [if_neg h3, if_neg h4, if_neg (by omega)]
    rw [ih (fun c hc => h c (List.mem_cons_of_mem _ hc))]

theorem intChars_ne_nil (i : Int) : intChars i ≠ [] := by
  cases i with
  | ofNat n => exact natChars_ne_nil n
  | negSucc n => simp [intChars]

theorem length_intChars_pos (i : Int) : 1 ≤ (intChars i).length :=
  List.length_pos.mpr (intChars_ne_nil i)

mutual

theorem jw_le_len : ∀ j : Json, jweight j ≤ (strJ j).length
  | .null => by simp [jweight, strJ]
  | .bool true => by simp [jweight, strJ]
  | .bool false => by simp [jweight, strJ]
  | .num n => by simpa [jweight, strJ] using length_intChars_pos n
  | .str s => by simp [jweight, strJ, strLit]
  | .arr xs => by
    have h := jwL_le_len xs
    simp only [jweight, strJ, List.length_cons, List.length_append]
    omega
  | .obj fs => by
    have h := jwF_le_len fs
    simp only [jweight, strJ, List.length_cons, List.length_append]
    omega

theorem jwL_le_len : ∀ xs : List Json, jweightL xs ≤ (strElems xs).length + 1
  | [] => by simp [jweightL, strElems]
  | [x] => by
    have h := jw_le_len x
    simp only [jweightL, strElems]
    omega
  | x :: y :: xs => by
    have h1 := jw_le_len x
    have h2 := jwL_le_len (y :: xs)
    have e1 : jweightL (x :: y :: xs) = 1 + jweight x + jweightL (y :: xs) := by
      simp only [jweightL]
    have e2 : strElems (x :: y :: xs) = strJ x ++ ',' :: strElems (y :: xs) := by
      simp only [strElems]
    rw [e1, e2]
    simp only [List.length_append, List.length_cons]
    omega

theorem jwF_le_len : ∀ fs : List (String × Json), jweightF fs ≤ (strFields fs).length + 1
  | [] => by simp [jweightF, strFields]
  | [(k, v)] => by
    have h := jw_le_len v
    simp only [jweightF, strFields, List.length_append, List.length_cons]
    omega
  | (k, v) :: g :: fs => by
    have h1 := jw_le_len v
    have h2 := jwF_le_len (g :: fs)
    have e1 : jweightF ((k, v) :: g :: fs) = 1 + jweight v + jweightF (g :: fs) := by
      simp only [jweightF]
    have e2 : strFields ((k, v) :: g :: fs) =
        strLit k ++ ':' :: strJ v ++ ',' :: strFields (g :: fs) := by
      simp only [strFields]
    rw [e1, e2]
    simp only [List.length_append, List.length_cons]
    omega

end

theorem jweight_pos : ∀ j : Json, 1 ≤ jweight j
  | .null => by simp [jweight]
  | .bool _ => by simp [jweight]
  | .num _ => by simp [jweight]
  | .str _ => by simp [jweight]
  | .arr _ => by simp [jweight]
  | .obj _ => by simp [jweight]

/-- Facts about a character known to be a decimal digit, used to drive the
parser's dispatch. -/
theorem digit_dispatch {c : Char} (h : c.isDigit = true) :
    jsonWs c = false ∧ c ≠ '[' ∧ c ≠ '\x7b' ∧ c ≠ '"' ∧ c ≠ 'n' ∧ c ≠ 't' ∧
    c ≠ 'f' ∧ c ≠ ']' ∧ c ≠ '\x7d' ∧ c ≠ ',' ∧ c ≠ ':' := by
  refine ⟨?_, ?_, ?_, ?_, ?_, ?_, ?_, ?_, ?_, ?_, ?_⟩
  · unfold jsonWs
    rw [decide_eq_false (isDigit_ne h (by decide)), decide_eq_false (isDigit_ne h (by decide)),
      decide_eq_false (isDigit_ne h (by decide)), decide_eq_false (isDigit_ne h (by decide))]
    rfl
  all_goals exact isDigit_ne h (by decide)

/-- The first character of a stringified JSON value, with the dispatch
facts needed by the parser: it is not whitespace and is none of the
delimiters that terminate a surrounding construct. -/
theorem strJ_head (j : Json) :
    ∃ c cs, strJ j = c :: cs ∧ jsonWs c = false ∧ c ≠ ']' ∧ c ≠ '\x7d' ∧
      c ≠ ',' ∧ c ≠ ':' := by
  cases j with
  | null => exact ⟨'n', ['u', 'l', 'l'], by simp [strJ], by decide, by decide, by decide, by decide, by decide⟩
  | bool b =>
    cases b with
    | true => exact ⟨'t', ['r', 'u', 'e'], by simp [strJ], by decide, by decide, by decide, by decide, by decide⟩
    | false => exact ⟨'f', ['a', 'l', 's', 'e'], by simp [strJ], by decide, by decide, by decide, by decide, by decide⟩
  | num n =>
    obtain ⟨c, cs, hc⟩ : ∃ c cs, intChars n = c :: cs := by
      cases h : intChars n with
      | nil => exact absurd h (intChars_ne_nil n)
      | cons c cs => exact ⟨c, cs, rfl⟩
    have hdd : c.isDigit = true ∨ c = '-' := intChars_chars n c (by rw [hc]; exact List.mem_cons_self _ _)
    rcases hdd with hd | hd
    · obtain ⟨hws, _, _, _, _, _, _, h8, h9, h10, h11⟩ := digit_dispatch hd
      exact ⟨c, cs, by simp [strJ, hc], hws, h8, h9, h10, h11⟩
    · subst hd
      exact ⟨'-', cs, by simp [strJ, hc], by decide, by decide, by decide, by decide, by decide⟩
  | str s =>
    refine ⟨'"', s.data.foldr (fun c acc => escapeChar c ++ acc) ['"'], ?_,
      by decide, by decide, by decide, by decide, by decide⟩
    simp [strJ, strLit]
  | arr xs =>
    exact ⟨'[', strElems xs ++ [']'], by simp [strJ], by decide, by decide, by decide,
      by decide, by decide⟩
  | obj fs =>
    exact ⟨'\x7b', strFields fs ++ ['\x7d'], by simp [strJ], by decide, by decide, by decide,
      by decide, by decide⟩

theorem noDigitHead_of {c : Char} (h : c.isDigit = false) (r : List Char) :
    noDigitHead (c :: r) := by simp [noDigitHead, h]

theorem parseValue_num_dispatch (fuel : Nat) {c : Char} (cs : List Char)
    (hws : jsonWs c = false) (h1 : c ≠ '[') (h2 : c ≠ '\x7b') (h3 : c ≠ '"')
    (h4 : c ≠ 'n') (h5 : c ≠ 't') (h6 : c ≠ 'f') (h7 : c = '-' ∨ c.isDigit = true) :
    parseValue (fuel + 1) (c :: cs) =
      match parseNumber (c :: cs) with
      | some (n, r) => some (.num n, r)
      | none => none := by
  rw [parseValue]
  rw [skipWs_cons_of_not_ws hws]
  dsimp only
  rw [if_neg h1, if_neg h2, if_neg h3, if_neg h4, if_neg h5, if_neg h6, if_pos h7]

mutual

theorem parseValue_strJ : ∀ (fuel : Nat) (j : Json) (rest : List Char),
    CleanJ j → jweight j ≤ fuel → noDigitHead rest →
    parseValue fuel (strJ j ++ rest) = some (j, rest)
  | 0, j, _ => fun _ hw _ => absurd hw (by have := jweight_pos j; omega)
  | fuel+1, .null, rest => fun _ _ _ => rfl
  | fuel+1, .bool b, rest => fun _ _ _ => by cases b <;> rfl
  | fuel+1, .num n, rest => fun _ _ hr => by
    obtain ⟨c, cs, hcons⟩ : ∃ c cs, intChars n = c :: cs := by
      cases h : intChars n with
      | nil => exact absurd h (intChars_ne_nil n)
      | cons c cs => exact ⟨c, cs, rfl⟩
    have hcc := intChars_chars n c (by rw [hcons]; exact List.mem_cons_self _ _)
    have facts : jsonWs c = false ∧ c ≠ '[' ∧ c ≠ '\x7b' ∧ c ≠ '"' ∧ c ≠ 'n' ∧
        c ≠ 't' ∧ c ≠ 'f' ∧ (c = '-' ∨ c.isDigit = true) := by
      rcases hcc with hd | hd
      · obtain ⟨hws, g2, g3, g4, g5, g6, g7, _⟩ := digit_dispatch hd
        exact ⟨hws, g2, g3, g4, g5, g6, g7, Or.inr hd⟩
      · subst hd
        exact ⟨by decide, by decide, by decide, by decide, by decide, by decide, by decide,
          Or.inl rfl⟩
    obtain ⟨hws, g2, g3, g4, g5, g6, g7, g8⟩ := facts
    have e : strJ (.num n) ++ rest = c :: (cs ++ rest) := by
      show intChars n ++ rest = _
      rw [hcons, List.cons_append]
    rw [e, parseValue_num_dispatch fuel (cs ++ rest) hws g2 g3 g4 g5 g6 g7 g8]
    have hpn : parseNumber (c :: (cs ++ rest)) = some (n, rest) := by
      rw [← List.cons_append, ← hcons]
      exact parseNumber_intChars n hr
    rw [hpn]
  | fuel+1, .str s, rest => fun hc _ _ => by
    have hclean : cleanStr s := by cases hc with | str _ h => exact h
    have e : strJ (.str s) ++ rest = '"' :: (s.data ++ '"' :: rest) := by
      show strLit s ++ rest = _
      rw [strLit_clean_eq hclean]
      simp
    rw [e, parseValue]
    rw [skipWs_cons_of_not_ws (by decide)]
    dsimp only
    rw [if_neg (by decide), if_neg (by decide), if_pos rfl]
    rw [parseStrAux_clean rest hclean]
  | fuel+1, .arr [], rest => fun _ _ _ => rfl
  | fuel+1, .arr (x :: xs), rest => fun hc hw hr => by
    have hcx : ∀ y ∈ x :: xs, CleanJ y := by cases hc with | arr _ h => exact h
    have hwx : jweightL (x :: xs) ≤ fuel := by
      have e : jweight (.arr (x :: xs)) = 1 + jweightL (x :: xs) := rfl
      omega
    have hPE := parseElems_strElems fuel (x :: xs) rest (by simp) hcx hwx hr
    obtain ⟨c0, cs0, hj, hws0, hne0, _, _, _⟩ := strJ_head x
    obtain ⟨t, ht⟩ : ∃ t, strElems (x :: xs) = strJ x ++ t := by
      cases xs with
      | nil => exact ⟨[], by simp [strElems]⟩
      | cons y ys => exact ⟨',' :: strElems (y :: ys), rfl⟩
    have hfull : strElems (x :: xs) ++ ']' :: rest = c0 :: (cs0 ++ (t ++ ']' :: rest)) := by
      rw [ht, hj]
      simp
    have e : strJ (.arr (x :: xs)) ++ rest = '[' :: (strElems (x :: xs) ++ ']' :: rest) := by
      show ('[' :: (strElems (x :: xs) ++ [']'])) ++ rest = _
      simp
    rw [e, parseValue]
    rw [skipWs_cons_of_not_ws (by decide)]
    dsimp only
    rw [if_pos rfl]
    rw [hfull, skipWs_cons_of_not_ws hws0]
    rw [hfull] at hPE
    split
    · rename_i r heq
      injection heq with h1 h2
      exact absurd h1 hne0
    · rw [hPE]
  | fuel+1, .obj [], rest => fun _ _ _ => rfl
  | fuel+1, .obj (f :: fs), rest => fun hc hw hr => by
    obtain ⟨k, v⟩ := f
    have hck : ∀ g ∈ (k, v) :: fs, cleanStr g.1 := by cases hc with | obj _ h1 h2 => exact h1
    have hcv : ∀ g ∈ (k, v) :: fs, CleanJ g.2 := by cases hc with | obj _ h1 h2 => exact h2
    have hwx : jweightF ((k, v) :: fs) ≤ fuel := by
      have e : jweight (.obj ((k, v) :: fs)) = 1 + jweightF ((k, v) :: fs) := rfl
      omega
    have hPF := parseFields_strFields fuel ((k, v) :: fs) rest (by simp) hck hcv hwx hr
    obtain ⟨t, ht⟩ : ∃ t, strFields ((k, v) :: fs) = '"' ::
        (k.data.foldr (fun c acc => escapeChar c ++ acc) ['"'] ++ t) := by
      cases fs with
      | nil =>
        refine ⟨':' :: strJ v, ?_⟩
        show strLit k ++ ':' :: strJ v = _
        simp [strLit]
      | cons g gs =>
        refine ⟨':' :: strJ v ++ ',' :: strFields (g :: gs), ?_⟩
        show strLit k ++ ':' :: strJ v ++ ',' :: strFields (g :: gs) = _
        simp [strLit]
    have hfull : strFields ((k, v) :: fs) ++ '\x7d' :: rest = '"' ::
        ((k.data.foldr (fun c acc => escapeChar c ++ acc) ['"'] ++ t) ++ '\x7d' :: rest) := by
      rw [ht]
      simp
    have e : strJ (.obj ((k, v) :: fs)) ++ rest =
        '\x7b' :: (strFields ((k, v) :: fs) ++ '\x7d' :: rest) := by
      show ('\x7b' :: (strFields ((k, v) :: fs) ++ ['\x7d'])) ++ rest = _
      simp
    rw [e, parseValue]
    rw [skipWs_cons_of_not_ws (by decide)]
    dsimp only
    rw [if_neg (by decide), if_pos rfl]
    rw [hfull, skipWs_cons_of_not_ws (by decide)]
    rw [hfull] at hPF
    split
    · rename_i r heq
      injection heq with h1 h2
      exact absurd h1 (by decide)
    · rw [hPF]

theorem parseElems_strElems : ∀ (fuel : Nat) (xs : List Json) (rest : List Char),
    xs ≠ [] → (∀ x ∈ xs, CleanJ x) → jweightL xs ≤ fuel → noDigitHead rest →
    parseElems fuel (strElems xs ++ ']' :: rest) = some (xs, rest)
  | 0, xs, _ => fun hne _ hw _ => by
    cases xs with
    | nil => exact absurd rfl hne
    | cons x xs =>
      have e : jweightL (x :: xs) = 1 + jweight x + jweightL xs := rfl
      omega
  | fuel+1, [], _ => fun hne _ _ _ => absurd rfl hne
  | fuel+1, [x], rest => fun _ hcx hw hr => by
    have hwx : jweight x ≤ fuel := by
      have e : jweightL [x] = 1 + jweight x + jweightL [] := rfl
      have e0 : jweightL ([] : List Json) = 0 := rfl
      omega
    have hPV := parseValue_strJ fuel x (']' :: rest) (hcx x (List.mem_cons_self _ _)) hwx
      (noDigitHead_of (by decide) rest)
    have e : strElems [x] ++ ']' :: rest = strJ x ++ ']' :: rest := rfl
    rw [e, parseElems, hPV]
    dsimp only
    rw [skipWs_cons_of_not_ws (by decide)]
    split
    · rename_i r2 heq
      injection heq with h1 _
      exact absurd h1 (by decide)
    · rename_i r2 heq
      injection heq with _ h2
      rw [h2]
    · rename_i h1 h2
      exact absurd rfl (h2 rest)
  | fuel+1, x :: y :: ys, rest => fun _ hcx hw hr => by
    have hwx : jweight x ≤ fuel ∧ jweightL (y :: ys) ≤ fuel := by
      have e : jweightL (x :: y :: ys) = 1 + jweight x + jweightL (y :: ys) := rfl
      have p1 := jweight_pos x
      have e2 : jweightL (y :: ys) = 1 + jweight y + jweightL ys := rfl
      omega
    have hPV := parseValue_strJ fuel x (',' :: (strElems (y :: ys) ++ ']' :: rest))
      (hcx x (List.mem_cons_self _ _)) hwx.1 (noDigitHead_of (by decide) _)
    have hPE := parseElems_strElems fuel (y :: ys) rest (by simp)
      (fun z hz => hcx z (List.mem_cons_of_mem _ hz)) hwx.2 hr
    have e : strElems (x :: y :: ys) ++ ']' :: rest =
        strJ x ++ ',' :: (strElems (y :: ys) ++ ']' :: rest) := by
      show (strJ x ++ ',' :: strElems (y :: ys)) ++ ']' :: rest = _
      simp
    rw [e, parseElems, hPV]
    dsimp only
    rw [skipWs_cons_of_not_ws (by decide)]
    split
    · rename_i r2 heq
      injection heq with _ h2
      subst h2
      rw [hPE]
    · rename_i r2 heq
      injection heq with h1 _
      exact absurd h1 (by decide)
    · rename_i h1 h2
      exact absurd rfl (h1 _)

theorem parseFields_strFields : ∀ (fuel : Nat) (fs : List (String × Json)) (rest : List Char),
    fs ≠ [] → (∀ g ∈ fs, cleanStr g.1) → (∀ g ∈ fs, CleanJ g.2) →
    jweightF fs ≤ fuel → noDigitHead rest →
    parseFields fuel (strFields fs ++ '\x7d' :: rest) = some (fs, rest)
  | 0, fs, _ => fun hne _ _ hw _ => by
    cases fs with
    | nil => exact absurd rfl hne
    | cons g fs =>
      obtain ⟨k, v⟩ := g
      have e : jweightF ((k, v) :: fs) = 1 + jweight v + jweightF fs := rfl
      omega
  | fuel+1, [], _ => fun hne _ _ _ _ => absurd rfl hne
  | fuel+1, [(k, v)], rest => fun _ hck hcv hw hr => by
    have hwx : jweight v ≤ fuel := by
      have e : jweightF [(k, v)] = 1 + jweight v + jweightF [] := rfl
      have e0 : jweightF ([] : List (String × Json)) = 0 := rfl
      omega
    have hkc : cleanStr k := hck (k, v) (List.mem_cons_self _ _)
    have hPV := parseValue_strJ fuel v ('\x7d' :: rest) (hcv (k, v) (List.mem_cons_self _ _))
      hwx (noDigitHead_of (by decide) rest)
    have e : strFields [(k, v)] ++ '\x7d' :: rest =
        '"' :: (k.data ++ '"' :: (':' :: (strJ v ++ '\x7d' :: rest))) := by
      show (strLit k ++ ':' :: strJ v) ++ '\x7d' :: rest = _
      rw [strLit_clean_eq hkc]
      simp
    rw [e, parseFields]
    rw [skipWs_cons_of_not_ws (by decide)]
    split
    · rename_i cs heq
      injection heq with _ h2
      subst h2
      rw [parseStrAux_clean _ hkc]
      dsimp only
      rw [skipWs_cons_of_not_ws (by decide)]
      split
      · rename_i r2 heq2
        injection heq2 with _ h3
        subst h3
        rw [hPV]
        dsimp only
        rw [skipWs_cons_of_not_ws (by decide)]
        split
        · rename_i r4 heq3
          injection heq3 with h4 _
          exact absurd h4 (by decide)
        · rename_i r4 heq3
          injection heq3 with _ h5
          rw [h5]
        · rename_i h4 h5
          exact absurd rfl (h5 rest)
      · rename_i h3
        exact absurd rfl (h3 _)
    · rename_i h2
      exact absurd rfl (h2 _)
  | fuel+1, (k, v) :: g :: gs, rest => fun _ hck hcv hw hr => by
    have hwx : jweight v ≤ fuel ∧ jweightF (g :: gs) ≤ fuel := by
      have e : jweightF ((k, v) :: g :: gs) = 1 + jweight v + jweightF (g :: gs) := rfl
      obtain ⟨gk, gv⟩ := g
      have e2 : jweightF ((gk, gv) :: gs) = 1 + jweight gv + jweightF gs := rfl
      omega
    have hkc : cleanStr k := hck (k, v) (List.mem_cons_self _ _)
    have hPV := parseValue_strJ fuel v (',' :: (strFields (g :: gs) ++ '\x7d' :: rest))
      (hcv (k, v) (List.mem_cons_self _ _)) hwx.1 (noDigitHead_of (by decide) _)
    have hPF := parseFields_strFields fuel (g :: gs) rest (by simp)
      (fun z hz => hck z (List.mem_cons_of_mem _ hz))
      (fun z hz => hcv z (List.mem_cons_of_mem _ hz)) hwx.2 hr
    have e : strFields ((k, v) :: g :: gs) ++ '\x7d' :: rest =
        '"' :: (k.data ++ '"' :: (':' :: (strJ v ++ ',' ::
          (strFields (g :: gs) ++ '\x7d' :: rest)))) := by
      show (strLit k ++ ':' :: strJ v ++ ',' :: strFields (g :: gs)) ++ '\x7d' :: rest = _
      rw [strLit_clean_eq hkc]
      simp
    rw [e, parseFields]
    rw [skipWs_cons_of_not_ws (by decide)]
    split
    · rename_i cs heq
      injection heq with _ h2
      subst h2
      rw [parseStrAux_clean _ hkc]
      dsimp only
      rw [skipWs_cons_of_not_ws (by decide)]
      split
      · rename_i r2 heq2
        injection heq2 with _ h3
        subst h3
        rw [hPV]
        dsimp only
        rw [skipWs_cons_of_not_ws (by decide)]
        split
        · rename_i r4 heq3
          injection heq3 with _ h5
          subst h5
          rw [hPF]
        · rename_i r4 heq3
          injection heq3 with h4 _
          exact absurd h4 (by decide)
        · rename_i h4 h5
          exact absurd rfl (h4 _)
      · rename_i h3
        exact absurd rfl (h3 _)
    · rename_i h2
      exact absurd rfl (h2 _)

end

/-! ### ASCII and UTF-8 round trip -/

theorem digitChar_ascii {d : Nat} (h : d < 10) : (digitChar d).toNat < 0x80 := by
  interval_cases d <;> decide

theorem natCharsAux_ascii {fuel n : Nat} (h : n ≤ fuel) :
    ∀ c ∈ natCharsAux fuel n, c.toNat < 0x80 := by
  induction fuel generalizing n with
  | zero => simp [natCharsAux]
  | succ fuel ih =>
    intro c hc
    rw [natCharsAux] at hc
    by_cases h0 : n = 0
    · simp [h0] at hc
    · simp only [h0, if_false, List.mem_append, List.mem_singleton] at hc
      rcases hc with hc | hc
      · exact ih (by omega : n / 10 ≤ fuel) c hc
      · subst hc; exact digitChar_ascii (Nat.mod_lt _ (by omega))

theorem natChars_ascii (n : Nat) : ∀ c ∈ natChars n, c.toNat < 0x80 := by
  unfold natChars
  by_cases h0 : n = 0
  · simp only [h0, if_true]
    intro c hc
    simp at hc
    subst hc
    decide
  · simp only [h0, if_false]
    exact natCharsAux_ascii le_rfl

theorem intChars_ascii (i : Int) : ∀ c ∈ intChars i, c.toNat < 0x80 := by
  cases i with
  | ofNat n => exact natChars_ascii n
  | negSucc n =>
    intro c hc
    rcases List.mem_cons.mp hc with rfl | hc
    · decide
    · exact natChars_ascii _ c hc

mutual

theorem strJ_ascii : ∀ j : Json, CleanJ j → ∀ c ∈ strJ j, c.toNat < 0x80
  | .null => by intro _ c hc; fin_cases hc <;> decide
  | .bool b => by cases b <;> (intro _ c hc; fin_cases hc <;> decide)
  | .num n => fun _ c hc => intChars_ascii n c hc
  | .str s => by
    intro hcl c hc
    have hclean : cleanStr s := by cases hcl with | str _ h => exact h
    rw [show strJ (.str s) = '"' :: (s.data ++ ['"']) from strLit_clean_eq hclean] at hc
    simp only [List.mem_cons, List.mem_append, List.not_mem_nil, or_false] at hc
    rcases hc with rfl | hc | rfl
    · decide
    · have := (hclean c hc).2.1; omega
    · decide
  | .arr xs => by
    intro hcl c hc
    have hcx : ∀ y ∈ xs, CleanJ y := by cases hcl with | arr _ h => exact h
    rw [show strJ (.arr xs) = '[' :: (strElems xs ++ [']']) from rfl] at hc
    simp only [List.mem_cons, List.mem_append, List.not_mem_nil, or_false] at hc
    rcases hc with rfl | hc | rfl
    · decide
    · exact strElems_ascii xs hcx c hc
    · decide
  | .obj fs => by
    intro hcl c hc
    have hck : ∀ g ∈ fs, cleanStr g.1 := by cases hcl with | obj _ h1 h2 => exact h1
    have hcv : ∀ g ∈ fs, CleanJ g.2 := by cases hcl with | obj _ h1 h2 => exact h2
    rw [show strJ (.obj fs) = '\x7b' :: (strFields fs ++ ['\x7d']) from rfl] at hc
    simp only [List.mem_cons, List.mem_append, List.not_mem_nil, or_false] at hc
    rcases hc with rfl | hc | rfl
    · decide
    · exact strFields_ascii fs hck hcv c hc
    · decide

theorem strElems_ascii : ∀ xs : List Json, (∀ y ∈ xs, CleanJ y) →
    ∀ c ∈ strElems xs, c.toNat < 0x80
  | [] => by intro _ c hc; simp [strElems] at hc
  | [x] => fun h c hc => strJ_ascii x (h x (List.mem_cons_self _ _)) c hc
  | x :: y :: ys => by
    intro h c hc
    rw [show strElems (x :: y :: ys) = strJ x ++ ',' :: strElems (y :: ys) from rfl] at hc
    simp only [List.mem_append, List.mem_cons, List.not_mem_nil, or_false] at hc
    rcases hc with hc | rfl | hc
    · exact strJ_ascii x (h x (List.mem_cons_self _ _)) c hc
    · decide
    · exact strElems_ascii (y :: ys) (fun z hz => h z (List.mem_cons_of_mem _ hz)) c hc

theorem strFields_ascii : ∀ fs : List (String × Json), (∀ g ∈ fs, cleanStr g.1) →
    (∀ g ∈ fs, CleanJ g.2) → ∀ c ∈ strFields fs, c.toNat < 0x80
  | [] => by intro _ _ c hc; simp [strFields] at hc
  | [(k, v)] => by
    intro h1 h2 c hc
    have hkc : cleanStr k := h1 (k, v) (List.mem_cons_self _ _)
    rw [show strFields [(k, v)] = strLit k ++ ':' :: strJ v from rfl,
      strLit_clean_eq hkc] at hc
    rcases List.mem_append.mp hc with hc | hc
    · rcases List.mem_cons.mp hc with rfl | hc
      · decide
      · rcases List.mem_append.mp hc with hc | hc
        · have := (hkc c hc).2.1; omega
        · rcases List.mem_cons.mp hc with rfl | hc
          · decide
          · simp at hc
    · rcases List.mem_cons.mp hc with rfl | hc
      · decide
      · exact strJ_ascii v (h2 (k, v) (List.mem_cons_self _ _)) c hc
  | (k, v) :: g :: gs => by
    intro h1 h2 c hc
    have hkc : cleanStr k := h1 (k, v) (List.mem_cons_self _ _)
    rw [show strFields ((k, v) :: g :: gs) =
        strLit k ++ ':' :: strJ v ++ ',' :: strFields (g :: gs) from rfl,
      strLit_clean_eq hkc] at hc
    rcases List.mem_append.mp hc with hc | hc
    · rcases List.mem_cons.mp hc with rfl | hc
      · decide
      · rcases List.mem_append.mp hc with hc | hc
        · rcases List.mem_append.mp hc with hc | hc
          · have := (hkc c hc).2.1; omega
          · rcases List.mem_cons.mp hc with rfl | hc
            · decide
            · simp at hc
        · rcases List.mem_cons.mp hc with rfl | hc
          · decide
          · exact strJ_ascii v (h2 (k, v) (List.mem_cons_self _ _)) c hc
    · rcases List.mem_cons.mp hc with rfl | hc
      · decide
      · exact strFields_ascii (g :: gs) (fun z hz => h1 z (List.mem_cons_of_mem _ hz))
          (fun z hz => h2 z (List.mem_cons_of_mem _ hz)) c hc

end

theorem b64vals_lt : ∀ bytes : List Nat, (∀ b ∈ bytes, b < 256) →
    ∀ v ∈ b64vals bytes, v < 64
  | [] => by intro _ v hv; simp [b64vals] at hv
  | [b1] => by
    intro h v hv
    have hb1 := h b1 (List.mem_cons_self _ _)
    rcases List.mem_cons.mp hv with rfl | hv
    · omega
    · rcases List.mem_cons.mp hv with rfl | hv
      · omega
      · simp at hv
  | [b1, b2] => by
    intro h v hv
    have hb1 := h b1 (List.mem_cons_self _ _)
    have hb2 := h b2 (List.mem_cons_of_mem _ (List.mem_cons_self _ _))
    rcases List.mem_cons.mp hv with rfl | hv
    · omega
    · rcases List.mem_cons.mp hv with rfl | hv
      · omega
      · rcases List.mem_cons.mp hv with rfl | hv
        · omega
        · simp at hv
  | b1 :: b2 :: b3 :: rest => by
    intro h v hv
    have hb1 := h b1 (List.mem_cons_self _ _)
    have hb2 := h b2 (List.mem_cons_of_mem _ (List.mem_cons_self _ _))
    have hb3 := h b3 (List.mem_cons_of_mem _ (List.mem_cons_of_mem _ (List.mem_cons_self _ _)))
    rcases List.mem_cons.mp hv with rfl | hv
    · omega
    · rcases List.mem_cons.mp hv with rfl | hv
      · omega
      · rcases List.mem_cons.mp hv with rfl | hv
        · omega
        · rcases List.mem_cons.mp hv with rfl | hv
          · omega
          · exact b64vals_lt rest
              (fun b hb => h b (List.mem_cons_of_mem _ (List.mem_cons_of_mem _
                (List.mem_cons_of_mem _ hb)))) v hv

attribute [local semireducible] Rat.mul Rat.add Rat.sub Rat.inv Rat.ofScientific

theorem edgeKeyK_lt {ka kb : String} (h : ka.toList < kb.toList) :
    edgeKeyK ka kb = ka ++ "|" ++ kb := by
  unfold edgeKeyK
  rw [if_pos (String.lt_iff_toList_lt.mpr h)]

theorem edgeKeyK_ge {ka kb : String} (h : ¬ ka.toList < kb.toList) :
    edgeKeyK ka kb = kb ++ "|" ++ ka := by
  unfold edgeKeyK
  rw [if_neg (fun hlt => h (String.lt_iff_toList_lt.mp hlt))]

set_option maxHeartbeats 2000000 in
theorem pointermove_cases (st : AppState) (ex ey : ℚ) :
    pointermove st ex ey = st ∨
    ∃ a b, pointermove st ex ey =
      { st with isDragging := true, vcx := a, vcy := b } := by
  unfold pointermove
  split
  · exact Or.inl rfl
  · split
    · exact Or.inl rfl
    · dsimp only
      split
      · exact Or.inr ⟨_, _, rfl⟩
      · exact Or.inl rfl

set_option maxHeartbeats 4000000 in
theorem keydown_cases (st : AppState) (key : String) :
    ∃ z a b c d, keydown st key =
      { st with zoom := z, vcx := a, vcy := b, vw := c, vh := d } := by
  unfold keydown
  dsimp only
  split_ifs <;> exact ⟨_, _, _, _, _, rfl⟩

set_option maxHeartbeats 2000000 in
theorem pointerup_cases (st : AppState) (ex ey rl rt : ℚ) :
    pointerup st ex ey rl rt = st ∨
    ∃ g, pointerup st ex ey rl rt =
      { st with graph := g, isPointerDown := false, pointerStart := none,
                isDragging := false } := by
  unfold pointerup
  split
  · exact Or.inl rfl
  · split
    · exact Or.inr ⟨_, rfl⟩
    · dsimp only
      split
      · split
        · split
          · split
            · exact Or.inr ⟨_, rfl⟩
            · exact Or.inr ⟨_, rfl⟩
          · exact Or.inr ⟨_, rfl⟩
        · exact Or.inr ⟨_, rfl⟩
      · exact Or.inr ⟨_, rfl⟩

theorem pointermove_drag (st : AppState) (ex ey : ℚ) (ps : PStart)
    (hp : st.isPointerDown = true) (hps : st.pointerStart = some ps)
    (hd : (st.isDragging || decide ((ex - ps.x) ^ 2 + (ey - ps.y) ^ 2 > 6 ^ 2)) = true) :
    pointermove st ex ey =
      { st with
        isDragging := true
        vcx := max (st.vw / 2) (min (fullWidth - st.vw / 2)
          (ps.cx + -(ex - ps.x) * (st.vw / st.cw)))
        vcy := max (st.vh / 2) (min (fullHeight - st.vh / 2)
          (ps.cy + -(ey - ps.y) * (st.vh / st.ch))) } := by
  unfold pointermove
  rw [hp, if_neg (by simp), hps]
  dsimp only
  rw [if_pos hd]

theorem applyState_graph_eq (st : AppState) (obj : Json) (ht : jsTruthy obj = true) :
    (applyState st obj).graph = loadGraph obj := by
  unfold applyState
  rw [ht, if_neg (by simp)]
  dsimp only
  split
  · split
    · rfl
    · rfl
  · rfl

theorem applyState_vp (st : AppState) (obj vp : Json) (ht : jsTruthy obj = true)
    (hv : jsGet obj "viewport" = some vp)
    (htv : (jsTruthy vp && jsTypeofObject vp) = true) :
    applyState st obj =
      { st with
        graph := loadGraph obj
        zoom := vpZoom vp st.zoom
        vw := st.cw / vpZoom vp st.zoom
        vh := st.ch / vpZoom vp st.zoom
        vcx := max (st.cw / vpZoom vp st.zoom / 2)
          (min (fullWidth - st.cw / vpZoom vp st.zoom / 2) (vpNum vp "cx" st.vcx))
        vcy := max (st.ch / vpZoom vp st.zoom / 2)
          (min (fullHeight - st.ch / vpZoom vp st.zoom / 2) (vpNum vp "cy" st.vcy)) } := by
  unfold applyState
  rw [ht, if_neg (by simp), hv]
  dsimp only
  rw [if_pos htv]
  rfl

theorem loadGraph_arr (obj : Json) (es : List Json)
    (h : jsGet obj "edges" = some (.arr es)) :
    loadGraph obj = applyEdgesLoop es ⟨[], fun _ => 0⟩ := by
  unfold loadGraph
  rw [h]

theorem keydown_plus (st : AppState) :
    keydown st "+" =
      { st with
        zoom := min 8 (st.zoom * 1.2)
        vw := st.cw / min 8 (st.zoom * 1.2)
        vh := st.ch / min 8 (st.zoom * 1.2) } := by
  rfl

theorem keydown_minus (st : AppState) :
    keydown st "-" =
      { st with
        zoom := max 0.6 (st.zoom / 1.2)
        vw := st.cw / max 0.6 (st.zoom / 1.2)
        vh := st.ch / max 0.6 (st.zoom / 1.2) } := by
  rfl

/-- C5 counterexample: the `applyState` edge loop skips only non-arrays
and arrays shorter than 4, not tuples that fail to be exactly 4 numeric
components — a 5-component tuple and a tuple with a string and a boolean
component are both loaded (the latter via string coercion of its
components). -/
theorem claim_C5_counterexample :
    isLongArr (Json.arr [Json.num 0, Json.num 0, Json.num 1, Json.num 0, Json.num 7]) = true ∧
    (applyEdgesLoop [Json.arr [Json.num 0, Json.num 0, Json.num 1, Json.num 0, Json.num 7]]
        ⟨[], fun _ => 0⟩).edges = ["0,0|1,0"] ∧
    (applyEdgesLoop [Json.arr [Json.str "a", Json.bool true, Json.num 1, Json.num 0]]
        ⟨[], fun _ => 0⟩).edges = ["1,0|a,true"] ∧
    (applyEdgesLoop [Json.arr [Json.str "a", Json.bool true, Json.num 1, Json.num 0]]
        ⟨[], fun _ => 0⟩).degree "a,true" = 1 := by
  refine ⟨by decide, ?_, ?_, by decide⟩
  · show [edgeKeyK "0,0" "1,0"] = ["0,0|1,0"]
    rw [edgeKeyK_lt (by decide)]
    rfl
  · show [edgeKeyK "a,true" "1,0"] = ["1,0|a,true"]
    rw [edgeKeyK_ge (by decide)]
    rfl

/-- C5 (amended): bulk load replaces the graph with the fold of the edge
loop over the decoded list, independently of the prior graph; a tuple is
skipped exactly when it is not an array of length at least 4; a tuple of
four integers (possibly with extra components) inserts the canonical key
of its endpoints and increments both endpoint degrees; and no degree
constraint is re-validated — a node can reach degree 3 by bulk load. -/
theorem claim_C5_replaceAll :
    (∀ st obj es, jsTruthy obj = true → jsGet obj "edges" = some (.arr es) →
      (applyState st obj).graph = applyEdgesLoop es ⟨[], fun _ => 0⟩) ∧
    (∀ g e, isLongArr e = false → applyOneEdge g e = g) ∧
    (∀ g x1 y1 x2 y2 rest,
      applyOneEdge g (Json.arr ([Json.num x1, Json.num y1, Json.num x2, Json.num y2] ++ rest)) =
        ⟨mapSet g.edges (edgeKeyK (nodeKey ⟨x1, y1⟩) (nodeKey ⟨x2, y2⟩)),
         degSet (degSet g.degree (nodeKey ⟨x1, y1⟩) (g.degree (nodeKey ⟨x1, y1⟩) + 1))
           (nodeKey ⟨x2, y2⟩)
           (degSet g.degree (nodeKey ⟨x1, y1⟩) (g.degree (nodeKey ⟨x1, y1⟩) + 1)
             (nodeKey ⟨x2, y2⟩) + 1)⟩) ∧
    ((applyEdgesLoop
        [Json.arr [Json.num 0, Json.num 0, Json.num 1, Json.num 0],
         Json.arr [Json.num 0, Json.num 0, Json.num 0, Json.num 1],
         Json.arr [Json.num 0, Json.num 0, Json.num (-1), Json.num 0]]
        ⟨[], fun _ => 0⟩).degree "0,0" = 3) := by
  refine ⟨?_, ?_, ?_, by decide⟩
  · intro st obj es ht he
    rw [applyState_graph_eq st obj ht, loadGraph_arr obj es he]
  · intro g e h
    cases e with
    | arr items =>
      have hle : ¬ 4 ≤ items.length := by simpa [isLongArr] using h
      unfold applyOneEdge
      dsimp only
      rw [if_pos (by omega)]
    | null => rfl
    | bool b => rfl
    | num n => rfl
    | str s => rfl
    | obj fields => rfl
  · intro g x1 y1 x2 y2 rest
    have hk : ∀ a b : Int,
        jsToString (Json.num a) ++ "," ++ jsToString (Json.num b) = nodeKey ⟨a, b⟩ := by
      intro a b
      show String.mk ((intChars a ++ [',']) ++ intChars b)
          = String.mk (intChars a ++ ',' :: intChars b)
      rw [List.append_assoc]
      rfl
    show applyOneEdge g
        (Json.arr (Json.num x1 :: Json.num y1 :: Json.num x2 :: Json.num y2 :: rest)) = _
    unfold applyOneEdge
    dsimp only
    rw [if_neg (by simp)]
    simp only [List.getD_cons_zero, List.getD_cons_succ]
    rw [hk x1 y1, hk x2 y2]

/-- Witness for C5: a five-component tuple survives the load into the
graph produced by the edge loop. -/
theorem claim_C5_replaceAll_witness :
    (applyState sampleState (Json.obj [("edges",
        Json.arr [Json.arr [Json.num 0, Json.num 0, Json.num 1, Json.num 0, Json.num 7]])])).graph
      = applyEdgesLoop [Json.arr [Json.num 0, Json.num 0, Json.num 1, Json.num 0, Json.num 7]]
          ⟨[], fun _ => 0⟩ :=
  claim_C5_replaceAll.1 sampleState _ _ rfl rfl

/-- C7 counterexample: when the viewport is wider than the world, a drag
starting at the centered position is not a no-op — the clamp left-aligns
the center at `vw / 2 = 1200` instead of keeping it at `fullWidth / 2`. -/
theorem claim_C7_counterexample :
    fullWidth < oversizedSt.vw ∧
    oversizedSt.vcx = fullWidth / 2 ∧
    (pointermove oversizedSt 10 0).vcx = 1200 ∧
    (pointermove oversizedSt 10 0).vcx ≠ fullWidth / 2 := by
  decide

/-- C7 (amended): a drag past the threshold pans the center to the pointer
target clamped by `max(extent / 2, min(fullExtent - extent / 2, target))` on
each axis, and whenever the viewport fits inside the world this keeps the
viewport rectangle within the world bounds. -/
theorem claim_C7_pan_clamp :
    (∀ st ex ey ps, st.isPointerDown = true → st.pointerStart = some ps →
      (st.isDragging || decide ((ex - ps.x) ^ 2 + (ey - ps.y) ^ 2 > 6 ^ 2)) = true →
      (pointermove st ex ey).vcx
          = max (st.vw / 2) (min (fullWidth - st.vw / 2)
              (ps.cx + -(ex - ps.x) * (st.vw / st.cw))) ∧
      (pointermove st ex ey).vcy
          = max (st.vh / 2) (min (fullHeight - st.vh / 2)
              (ps.cy + -(ey - ps.y) * (st.vh / st.ch)))) ∧
    (∀ st ex ey ps, st.isPointerDown = true → st.pointerStart = some ps →
      (st.isDragging || decide ((ex - ps.x) ^ 2 + (ey - ps.y) ^ 2 > 6 ^ 2)) = true →
      0 < st.vw → st.vw ≤ fullWidth → 0 < st.vh → st.vh ≤ fullHeight →
      0 ≤ (pointermove st ex ey).vcx - st.vw / 2 ∧
      (pointermove st ex ey).vcx + st.vw / 2 ≤ fullWidth ∧
      0 ≤ (pointermove st ex ey).vcy - st.vh / 2 ∧
      (pointermove st ex ey).vcy + st.vh / 2 ≤ fullHeight) := by
  constructor
  · intro st ex ey ps hp hps hd
    rw [pointermove_drag st ex ey ps hp hps hd]
    exact ⟨rfl, rfl⟩
  · intro st ex ey ps hp hps hd hw hwf hh hhf
    rw [pointermove_drag st ex ey ps hp hps hd]
    dsimp only
    have h1 : st.vw / 2 ≤ max (st.vw / 2) (min (fullWidth - st.vw / 2)
        (ps.cx + -(ex - ps.x) * (st.vw / st.cw))) := le_max_left _ _
    have h2 : max (st.vw / 2) (min (fullWidth - st.vw / 2)
        (ps.cx + -(ex - ps.x) * (st.vw / st.cw))) ≤ fullWidth - st.vw / 2 :=
      max_le (by linarith) (min_le_left _ _)
    have h3 : st.vh / 2 ≤ max (st.vh / 2) (min (fullHeight - st.vh / 2)
        (ps.cy + -(ey - ps.y) * (st.vh / st.ch))) := le_max_left _ _
    have h4 : max (st.vh / 2) (min (fullHeight - st.vh / 2)
        (ps.cy + -(ey - ps.y) * (st.vh / st.ch))) ≤ fullHeight - st.vh / 2 :=
      max_le (by linarith) (min_le_left _ _)
    exact ⟨by linarith, by linarith, by linarith, by linarith⟩

/-- Witness for C7 at the spec example: a drag whose target center is −50
with half-extent 100 clamps the center to 100. -/
theorem claim_C7_pan_clamp_witness :
    (pointermove dragSt 50 0).vcx = 100 := by
  have h := (claim_C7_pan_clamp.1 dragSt 50 0 ⟨0, 0, 0, 75⟩ rfl rfl (by decide)).1
  rw [h]
  decide

/-- C8 counterexample: `applyState` accepts any positive zoom without the
[0.6, 8] clamp (zoom 100 is stored verbatim), and the keyboard zoom-out
recomputes the extents but never re-clamps the center — the center stays
put and ends up closer to the edge than half the new extent. -/
theorem claim_C8_counterexample :
    (applyState sampleState
        (Json.obj [("viewport", Json.obj [("zoom", Json.num 100)])])).zoom = 100 ∧
    ¬ ((applyState sampleState
        (Json.obj [("viewport", Json.obj [("zoom", Json.num 100)])])).zoom ≤ 8) ∧
    (keydown zoomOutSt "-").vcx = zoomOutSt.vcx ∧
    (keydown zoomOutSt "-").vcx < (keydown zoomOutSt "-").vw / 2 := by
  decide

/-- C8 (amended): the keyboard zoom keys clamp the new zoom into [0.6, 8]
and recompute both extents from the canvas size and the new zoom while
leaving the center untouched; the `applyState` zoom path accepts any
positive number unclamped, recomputes the extents, and re-clamps the
center. -/
theorem claim_C8_zoom :
    (∀ st, keydown st "+" =
      { st with
        zoom := min 8 (st.zoom * 1.2)
        vw := st.cw / min 8 (st.zoom * 1.2)
        vh := st.ch / min 8 (st.zoom * 1.2) }) ∧
    (∀ st, keydown st "-" =
      { st with
        zoom := max 0.6 (st.zoom / 1.2)
        vw := st.cw / max 0.6 (st.zoom / 1.2)
        vh := st.ch / max 0.6 (st.zoom / 1.2) }) ∧
    (∀ st, 0.6 ≤ st.zoom → st.zoom ≤ 8 →
      0.6 ≤ (keydown st "+").zoom ∧ (keydown st "+").zoom ≤ 8 ∧
      0.6 ≤ (keydown st "-").zoom ∧ (keydown st "-").zoom ≤ 8) ∧
    (∀ st obj vp z cx cy, jsTruthy obj = true → jsGet obj "viewport" = some vp →
      (jsTruthy vp && jsTypeofObject vp) = true →
      jsGet vp "zoom" = some (Json.num z) → 0 < z →
      jsGet vp "cx" = some (Json.num cx) → jsGet vp "cy" = some (Json.num cy) →
      (applyState st obj).zoom = (z : ℚ) ∧
      (applyState st obj).vw = st.cw / (z : ℚ) ∧
      (applyState st obj).vh = st.ch / (z : ℚ) ∧
      (applyState st obj).vcx
        = max (st.cw / (z : ℚ) / 2)
            (min (fullWidth - st.cw / (z : ℚ) / 2) (cx : ℚ)) ∧
      (applyState st obj).vcy
        = max (st.ch / (z : ℚ) / 2)
            (min (fullHeight - st.ch / (z : ℚ) / 2) (cy : ℚ))) := by
  refine ⟨keydown_plus, keydown_minus, ?_, ?_⟩
  · intro st h1 h2
    rw [keydown_plus, keydown_minus]
    dsimp only
    have hmul : (0.6 : ℚ) ≤ st.zoom * 1.2 := by nlinarith
    have hdiv : st.zoom / 1.2 ≤ 8 := by
      rw [div_le_iff₀ (by norm_num : (0 : ℚ) < 1.2)]
      nlinarith
    exact ⟨le_min (by norm_num) hmul, min_le_left _ _,
      le_max_left _ _, max_le (by norm_num) hdiv⟩
  · intro st obj vp z cx cy ht hv htv hz hzpos hx hy
    rw [applyState_vp st obj vp ht hv htv]
    have hzz : vpZoom vp st.zoom = (z : ℚ) := by
      unfold vpZoom
      rw [hz]
      dsimp only
      rw [if_pos hzpos]
    have hxx : vpNum vp "cx" st.vcx = (cx : ℚ) := by unfold vpNum; rw [hx]
    have hyy : vpNum vp "cy" st.vcy = (cy : ℚ) := by unfold vpNum; rw [hy]
    rw [hzz, hxx, hyy]
    exact ⟨rfl, rfl, rfl, rfl, rfl⟩

/-- Witness for C8: with zoom 3.2, both zoom keys keep the zoom inside
[0.6, 8]. -/
theorem claim_C8_zoom_witness :
    0.6 ≤ (keydown sampleState "+").zoom ∧ (keydown sampleState "+").zoom ≤ 8 ∧
    0.6 ≤ (keydown sampleState "-").zoom ∧ (keydown sampleState "-").zoom ≤ 8 :=
  claim_C8_zoom.2.2.1 sampleState (by decide) (by decide)

/-- C9: with nonzero viewport extents and canvas dimensions, the
world-to-screen and screen-to-world maps are exact mutual inverses. -/
theorem claim_C9_transform_inverse (st : AppState) (x y sx sy : ℚ)
    (hw : 0 < st.vw) (hh : 0 < st.vh) (hcw : 0 < st.cw) (hch : 0 < st.ch) :
    screenToFull st (fullToScreen st x y).1 (fullToScreen st x y).2 = (x, y) ∧
    fullToScreen st (screenToFull st sx sy).1 (screenToFull st sx sy).2 = (sx, sy) := by
  simp only [fullToScreen, screenToFull, Prod.mk.injEq]
  refine ⟨⟨?_, ?_⟩, ?_, ?_⟩ <;> field_simp <;> ring

/-- Witness for C9 at the sample state and the point (37, 59). -/
theorem claim_C9_transform_inverse_witness :
    screenToFull sampleState (fullToScreen sampleState 37 59).1
      (fullToScreen sampleState 37 59).2 = (37, 59) :=
  (claim_C9_transform_inverse sampleState 37 59 5 7 (by decide) (by decide)
    (by decide) (by decide)).1

/-- C10: panning and zooming handlers never change the edge set or degree
map, keyboard handling also preserves the canvas size and pointer state,
and `pointerup` — the only handler that can toggle an edge — leaves every
viewport field unchanged. -/
theorem claim_C10_frame :
    (∀ st ex ey, (pointermove st ex ey).graph = st.graph ∧
      (pointermove st ex ey).zoom = st.zoom ∧
      (pointermove st ex ey).vw = st.vw ∧
      (pointermove st ex ey).vh = st.vh ∧
      (pointermove st ex ey).cw = st.cw ∧
      (pointermove st ex ey).ch = st.ch) ∧
    (∀ st key, (keydown st key).graph = st.graph ∧
      (keydown st key).cw = st.cw ∧
      (keydown st key).ch = st.ch ∧
      (keydown st key).isPointerDown = st.isPointerDown ∧
      (keydown st key).pointerStart = st.pointerStart) ∧
    (∀ st ex ey rl rt, (pointerup st ex ey rl rt).zoom = st.zoom ∧
      (pointerup st ex ey rl rt).vcx = st.vcx ∧
      (pointerup st ex ey rl rt).vcy = st.vcy ∧
      (pointerup st ex ey rl rt).vw = st.vw ∧
      (pointerup st ex ey rl rt).vh = st.vh ∧
      (pointerup st ex ey rl rt).cw = st.cw ∧
      (pointerup st ex ey rl rt).ch = st.ch) := by
  refine ⟨?_, ?_, ?_⟩
  · intro st ex ey
    rcases pointermove_cases st ex ey with h | ⟨a, b, h⟩ <;> rw [h] <;>
      exact ⟨rfl, rfl, rfl, rfl, rfl, rfl⟩
  · intro st key
    obtain ⟨z, a, b, c, d, h⟩ := keydown_cases st key
    rw [h]
    exact ⟨rfl, rfl, rfl, rfl, rfl⟩
  · intro st ex ey rl rt
    rcases pointerup_cases st ex ey rl rt with h | ⟨g, h⟩ <;> rw [h] <;>
      exact ⟨rfl, rfl, rfl, rfl, rfl, rfl, rfl⟩

end Slither
